import Mathlib

/-!
# Verification of the RAG legal-document retrieval pipeline

A shallow embedding of the retrieval-and-annotation core of the repository
(`src/ner/legal_ner.py`, `src/retrieval/chunking.py`,
`src/retrieval/dark_zone_detector.py`, `src/retrieval/query_enhancer.py`,
`src/retrieval/hybrid_retriever.py`), together with proofs and refutations of
the specification's claims about it.

Modelling conventions:
* Python strings are embedded as `List Char`; only ASCII behaviour of
  `str.lower`, `str.split`, `str.strip` matters for the texts involved and is
  modelled exactly for ASCII.
* Python floats used as scores/confidences are embedded as `ℚ`.  All
  confidences are multiples of 0.05 and all RRF scores are sums of two unit
  fractions; in this range IEEE doubles behave exactly like the rationals for
  the comparisons the code performs.
* `int(n * 1.3)` (the fallback token counter) is embedded as `13 * n / 10`
  in `ℕ`: for word counts below 2^40 the double rounding of `n * 1.3` never
  crosses an integer boundary downward, so the truncation agrees with the
  rational floor.
* Python's `sorted` (stable, optionally `reverse=True`) is embedded as a
  stable insertion sort `pySorted`.
-/

namespace RagLegal

/-! ## Basic string utilities (ASCII fragment of Python `str` methods) -/

/-- Python `\s` / `str.split()` whitespace for the ASCII fragment:
space, tab, newline, carriage return, form feed, vertical tab. -/
def isPySpace (c : Char) : Bool :=
  c = ' ' ∨ c = '\t' ∨ c = '\n' ∨ c = '\r' ∨ c = '\x0c' ∨ c = '\x0b'

/-- ASCII `str.lower` on one character. -/
def pyLowerChar (c : Char) : Char :=
  if 'A' ≤ c ∧ c ≤ 'Z' then Char.ofNat (c.toNat + 32) else c

/-- ASCII `str.lower`. -/
def pyLower (s : List Char) : List Char := s.map pyLowerChar

/-- ASCII `str.upper` on one character. -/
def pyUpperChar (c : Char) : Char :=
  if 'a' ≤ c ∧ c ≤ 'z' then Char.ofNat (c.toNat - 32) else c

/-- ASCII `str.upper`. -/
def pyUpper (s : List Char) : List Char := s.map pyUpperChar

/-- Python `str.split()` with no argument: split on whitespace,
discarding empty fields. -/
def pySplitWs (s : List Char) : List (List Char) :=
  (s.splitOnP isPySpace).filter (fun w => ¬ w.isEmpty)

/-- `str.strip()`: remove leading and trailing whitespace. -/
def pyStrip (s : List Char) : List Char :=
  (s.dropWhile isPySpace).reverse.dropWhile isPySpace |>.reverse

/-- `sep.join(parts)` for a one-character separator list `sep`. -/
def pyJoin (sep : List Char) : List (List Char) → List Char
  | [] => []
  | [w] => w
  | w :: ws => w ++ sep ++ pyJoin sep ws

/-- `' '.join(parts)`. -/
def joinSp (parts : List (List Char)) : List Char := pyJoin [' '] parts

/-- `haystack.find(needle)`: index of the first occurrence, `-1` if absent,
as Python `str.find`. -/
def pyFind (haystack needle : List Char) : Int :=
  go haystack 0
where
  go : List Char → Nat → Int
    | [], i => if needle.isPrefixOf [] then (i : Int) else -1
    | c :: rest, i =>
      if needle.isPrefixOf (c :: rest) then (i : Int)
      else go rest (i + 1)

/-- Substring test (`needle in haystack` for Python strings). -/
def listInfix (needle haystack : List Char) : Bool :=
  decide (0 ≤ pyFind haystack needle)

/-! ## Python `sorted`: stable insertion sort

`pySorted le xs` models `sorted(xs, key=...)` where `le x y` decides
"key x ≤ key y" for ascending sorts, or "key x ≥ key y" for
`reverse=True` sorts (Python's reverse sort keeps equal elements in their
original order, which is exactly what stable insertion with a ≥-test does). -/

/-- Insert `x` before the first element `y` with `le x y`; keeps earlier
elements of the original list in front of later equal ones. -/
def pyInsert (le : α → α → Bool) (x : α) : List α → List α
  | [] => [x]
  | y :: ys => if le x y then x :: y :: ys else y :: pyInsert le x ys

/-- Stable sort: fold `pyInsert` from the right. -/
def pySorted (le : α → α → Bool) : List α → List α
  | [] => []
  | x :: xs => pyInsert le x (pySorted le xs)

/-! ## CPython `set` model (for `int` keys)

`HybridRetriever._reciprocal_rank_fusion` builds
`all_chunk_ids = set(bm25_ranks.keys()) | set(vector_ranks.keys())` and then
iterates over that set to fill the (insertion-ordered) dict `rrf_scores`.
The iteration order of a CPython `set` of small non-negative ints is the
slot order of its open-addressing hash table (`hash(i) = i`, table sizes are
powers of two starting at 8, probing per `set_add_entry`: a block of
`LINEAR_PROBES = 9` consecutive slots when it fits under the mask, then
`perturb >>= 5; i = (i*5 + 1 + perturb) & mask`, growing ×4 once
`fill*5 >= mask*3`).  We model that table below; the union is modelled as
inserting the left operand's ids (in first-occurrence order) and then the
right operand's, which reproduces CPython's copy-then-merge for the sizes
arising here.  The probe loop carries fuel; if the fuel were ever exhausted
(it is not, for any input evaluated in this file) the element is placed in
the first free slot, or appended, so that the table contents are preserved
in every case. -/

/-- The elements of a table in slot (= iteration) order. -/
def tblContents (t : List (Option ℕ)) : List ℕ := t.filterMap id

/-- One step of the CPython probe sequence: `perturb >>= 5;
i = (i*5 + 1 + perturb) & mask`. -/
def probeNext (size i perturb : ℕ) : ℕ × ℕ :=
  let perturb' := perturb / 32
  ((i * 5 + 1 + perturb') % size, perturb')

/-- Check slots `i, i+1, ..., i+k` for an empty one. -/
def linearScanEmpty (t : List (Option ℕ)) (i : ℕ) : ℕ → Option ℕ
  | 0 => if t.getD i (some 0) = none then some i else none
  | k + 1 =>
    if t.getD i (some 0) = none then some i else linearScanEmpty t (i + 1) k

/-- CPython probe for a free slot (`set_add_entry` / `set_insert_clean`
skeleton), with fuel. -/
def probeEmpty (t : List (Option ℕ)) : ℕ → ℕ → ℕ → Option ℕ
  | 0, _, _ => none
  | fuel + 1, i, perturb =>
    let probes := if i + 9 ≤ t.length - 1 then 9 else 0
    match linearScanEmpty t i probes with
    | some j => some j
    | none =>
      let (i', perturb') := probeNext t.length i perturb
      probeEmpty t fuel i' perturb'

/-- Put `x` into slot `i` if that slot is empty; otherwise (never reached on
the real probe path) fall back to the first free slot, or append. -/
def putAtEmpty (t : List (Option ℕ)) (i : ℕ) (x : ℕ) : List (Option ℕ) :=
  if t.getD i (some 0) = none then t.set i (some x)
  else
    match t.findIdx? (· = none) with
    | some j => if t.getD j (some 0) = none then t.set j (some x) else t ++ [some x]
    | none => t ++ [some x]

/-- Insert `x` (not currently present) into the table, following the CPython
probe sequence from `hash(x) % size`. -/
def tblInsert (t : List (Option ℕ)) (x : ℕ) : List (Option ℕ) :=
  putAtEmpty t ((probeEmpty t (t.length + 64) (x % t.length) x).getD t.length) x

/-- `set_table_resize`: smallest power-of-two table size strictly greater
than `minused`, at least 8 (`newsize = 8; while newsize <= minused:
newsize <<= 1`); the fuel `minused + 1` always suffices since the candidate
size doubles each step. -/
def newTblSize (minused : ℕ) : ℕ := go (minused + 1) 8
where
  go : ℕ → ℕ → ℕ
    | 0, n => n
    | fuel + 1, n => if n ≤ minused then go fuel (2 * n) else n

/-- Rebuild the table (the `set_insert_clean` loop of `set_table_resize`),
re-inserting the entries in slot order. -/
def tblRebuild (size : ℕ) (xs : List ℕ) : List (Option ℕ) :=
  xs.foldl tblInsert (List.replicate size none)

/-- Grow the table if the post-insert fill factor reaches 3/5 of the mask
(`fill*5 >= mask*3` in `set_add_entry`), to `used*4` (the `used <= 50000`
branch; unions here never reach 50000 elements). -/
def maybeResize (t : List (Option ℕ)) : List (Option ℕ) :=
  let fill := (tblContents t).length
  if fill * 5 ≥ (t.length - 1) * 3 then
    tblRebuild (newTblSize (fill * 4)) (tblContents t)
  else t

/-- `set.add(x)`. -/
def pySetAdd (t : List (Option ℕ)) (x : ℕ) : List (Option ℕ) :=
  if x ∈ tblContents t then t else maybeResize (tblInsert t x)

/-- Iteration order of a CPython set built by inserting `xs` left to right
into a fresh (size-8) table. -/
def pySetOrder (xs : List ℕ) : List ℕ :=
  tblContents (xs.foldl pySetAdd (List.replicate 8 none))

/-! ## Hybrid retriever (`src/retrieval/hybrid_retriever.py`) -/

/-- First-occurrence deduplication: the key order of a Python dict populated
by `for rank, (chunk_id, _) in enumerate(results, 1): ranks[chunk_id] = rank`
(re-assignment of an existing key keeps its original position). -/
def dedupFirst (l : List ℕ) : List ℕ := go [] l
where
  go (seen : List ℕ) : List ℕ → List ℕ
    | [] => []
    | x :: xs => if x ∈ seen then go seen xs else x :: go (x :: seen) xs

/-- `bm25_ranks[chunk_id]` / `vector_ranks[chunk_id]` built by
`for rank, (chunk_id, _) in enumerate(results, start=1):
ranks[chunk_id] = rank`: the 1-indexed rank of `id`, where a duplicate chunk
id keeps the **last** occurrence's rank (dict assignment overwrites). -/
def rankOfAux (id : ℕ) : List (ℕ × ℚ) → ℕ → Option ℕ
  | [], _ => none
  | x :: xs, i =>
    match rankOfAux id xs (i + 1) with
    | some r => some r
    | none => if x.1 = id then some (i + 1) else none

/-- The rank of `id` in a candidate list (`None` when absent). -/
def rankOf (l : List (ℕ × ℚ)) (id : ℕ) : Option ℕ := rankOfAux id l 0

/-- Contribution of one retriever to the RRF score of `id`
(`1.0 / (rank + self.rrf_k)` if present, else nothing added). -/
def rrfContrib (l : List (ℕ × ℚ)) (k : ℕ) (id : ℕ) : ℚ :=
  match rankOf l id with
  | some r => 1 / ((r : ℚ) + (k : ℚ))
  | none => 0

/-- `all_chunk_ids = set(bm25_ranks.keys()) | set(vector_ranks.keys())`,
in CPython set iteration order. -/
def allChunkIds (b v : List (ℕ × ℚ)) : List ℕ :=
  pySetOrder (dedupFirst (b.map Prod.fst) ++ dedupFirst (v.map Prod.fst))

/-- The `rrf_scores` dict as an association list in insertion order. -/
def rrfScored (b v : List (ℕ × ℚ)) (k : ℕ) : List (ℕ × ℚ) :=
  (allChunkIds b v).map (fun id => (id, rrfContrib b k id + rrfContrib v k id))

/-- Comparison used by `sorted(rrf_scores.items(), key=lambda x: x[1],
reverse=True)`. -/
def scoreGe (p q : ℕ × ℚ) : Bool := decide (q.2 ≤ p.2)

/-- `HybridRetriever._reciprocal_rank_fusion`. -/
def reciprocalRankFusion (b v : List (ℕ × ℚ)) (k top : ℕ) : List (ℕ × ℚ) :=
  (pySorted scoreGe (rrfScored b v k)).take top

/-- Errors surfaced by the retrieval layer (`ValueError` raised by
`BM25Retriever.retrieve` when the index is missing). -/
inductive RetrievalError where
  | indexNotReady
deriving DecidableEq, Repr

/-- State of `BM25Retriever`: the `_is_initialized` flag, plus an abstract
ranking function standing for the external `rank_bm25.BM25Okapi` scores
followed by `argsort`/top-k/positive-score filtering (the library is not part
of this repository; only the guard logic around it is modelled). -/
structure BM25State where
  isInitialized : Bool
  score : List (List Char) → List (ℕ × ℚ)

/-- `BM25Retriever.retrieve`: raises (`Except.error`) when
`not self._is_initialized`, otherwise returns the ranked candidates for the
lowercased whitespace-tokenized query. -/
def bm25Retrieve (s : BM25State) (query : List Char) :
    Except RetrievalError (List (ℕ × ℚ)) :=
  if ¬ s.isInitialized then .error .indexNotReady
  else .ok (s.score (pySplitWs (pyLower query)))

/-- `HybridRetriever.retrieve`: the lexical side is consulted **only if**
`self.bm25_retriever._is_initialized`, otherwise `bm25_results` stays `[]`;
the vector side's results come from the external store (parameter
`vectorResults`).  The function never raises. -/
def hybridRetrieve (s : BM25State) (vectorResults : List (ℕ × ℚ))
    (query : List Char) (k top : ℕ) : Except RetrievalError (List (ℕ × ℚ)) :=
  let bres := if s.isInitialized then s.score (pySplitWs (pyLower query)) else []
  .ok (reciprocalRankFusion bres vectorResults k top)

/-! ## Mini regex engine

The repository's patterns use a small regex fragment: literals, `\s+`, `\s*`,
optional punctuation (`\.?`, `\(?`, `\)?`), `(\d+[A-Z]?)`, `(\d+\/\d+)`,
`[A-Z][a-z]+`, `\d{1,2}`, `\d{4}`, character classes like the date separator class (dot, slash, dash), word
boundaries `\b`, `.*LITERAL`, and alternations of month names.  Each pattern
is translated item by item; `matchItems` implements Python `re` semantics for
this fragment (greedy quantifiers, backtracking where the fragment needs it:
optional items and `\d{1,2}`), and `reFinditer` implements `re.finditer`
(leftmost matches, scanning resumes at the end of each match).  With
`re.IGNORECASE` (`ci = true`) literals compare case-insensitively and
`[A-Z]`/`[a-z]` match any ASCII letter, as in CPython. -/

/-- One item of a pattern. -/
inductive RItem where
  | lit (s : List Char)
  | ws1
  | ws0
  | optC (c : Char)
  | grpNum
  | grpSlash
  | alpha1
  | alphaPlus
  | rep12digits
  | rep4digits
  | chClass (cs : List Char)
  | wordB
  | dotStarLit (s : List Char)
  | monthLit (ms : List (List Char))
deriving DecidableEq

/-- Case-insensitive (when `ci`) character comparison. -/
def chEq (ci : Bool) (a b : Char) : Bool :=
  if ci then pyLowerChar a = pyLowerChar b else a = b

/-- ASCII digit. -/
def isDigitB (c : Char) : Bool := '0' ≤ c ∧ c ≤ '9'

/-- ASCII letter. -/
def isAlphaB (c : Char) : Bool :=
  ('a' ≤ c ∧ c ≤ 'z') ∨ ('A' ≤ c ∧ c ≤ 'Z')

/-- Python `\w` (ASCII fragment), for `\b`. -/
def isWordB (c : Char) : Bool := isAlphaB c ∨ isDigitB c ∨ c = '_'

/-- Match a literal against a prefix of `s`; returns the remainder. -/
def litMatch (ci : Bool) : List Char → List Char → Option (List Char)
  | [], s => some s
  | _ :: _, [] => none
  | c :: cs, d :: ds => if chEq ci c d then litMatch ci cs ds else none

/-- First literal of `ms` matching a prefix of `s` (the month alternatives
are pairwise prefix-free, so at most one branch can match, making the
committed choice faithful to `re`'s leftmost-branch rule). -/
def altLitMatch (ci : Bool) : List (List Char) → List Char → Option (ℕ × List Char)
  | [], _ => none
  | m :: ms, s =>
    match litMatch ci m s with
    | some s' => some (m.length, s')
    | none => altLitMatch ci ms s

/-- The scanning loop of greedy `.*LIT` (see `dotStarLitMatch`). -/
def dsGo (ci : Bool) (l : List Char) : List Char → ℕ → Option ℕ → Option ℕ
  | [], j, best =>
    (match litMatch ci l [] with
     | some _ => some (j + l.length)
     | none => best)
  | c :: rest', j, best =>
    let best' := match litMatch ci l (c :: rest') with
      | some _ => some (j + l.length)
      | none => best
    if c = '\n' then best' else dsGo ci l rest' (j + 1) best'

/-- Greedy `.*LIT`: the largest `j` (not crossing a newline) at which `LIT`
matches; returns total consumed length.  Used only as the final item of a
pattern, where committing to the greedy choice is faithful. -/
def dotStarLitMatch (ci : Bool) (l : List Char) (s : List Char) : Option ℕ :=
  dsGo ci l s 0 none

/-- Match a pattern (list of items) against a prefix of `s`.
`prev` is the character immediately before the current position (for `\b`).
Returns the consumed length and the content of the capture group (empty if
the pattern has none). -/
def matchItems (ci : Bool) : List RItem → Option Char → List Char → Option (ℕ × List Char)
  | [], _, _ => some (0, [])
  | .lit l :: rest, prev, s =>
    (match litMatch ci l s with
     | some s' =>
       (matchItems ci rest (l.getLast? <|> prev) s').map
         (fun nc => (nc.1 + l.length, nc.2))
     | none => none)
  | .ws1 :: rest, prev, s =>
    let run := s.takeWhile isPySpace
    if run.length = 0 then none
    else (matchItems ci rest (run.getLast? <|> prev) (s.drop run.length)).map
      (fun nc => (nc.1 + run.length, nc.2))
  | .ws0 :: rest, prev, s =>
    let run := s.takeWhile isPySpace
    (matchItems ci rest (run.getLast? <|> prev) (s.drop run.length)).map
      (fun nc => (nc.1 + run.length, nc.2))
  | .optC c :: rest, prev, s =>
    (match s with
     | d :: s' =>
       if chEq ci c d then
         match matchItems ci rest (some d) s' with
         | some nc => some (nc.1 + 1, nc.2)
         | none => matchItems ci rest prev s
       else matchItems ci rest prev s
     | [] => matchItems ci rest prev s)
  | .grpNum :: rest, prev, s =>
    let ds := s.takeWhile isDigitB
    if ds.length = 0 then none
    else
      let s1 := s.drop ds.length
      (match s1 with
       | a :: s2 =>
         if (if ci then isAlphaB a else decide ('A' ≤ a ∧ a ≤ 'Z')) then
           match matchItems ci rest (some a) s2 with
           | some nc => some (nc.1 + ds.length + 1, ds ++ [a])
           | none =>
             (matchItems ci rest (ds.getLast? <|> prev) s1).map
               (fun nc => (nc.1 + ds.length, ds))
         else
           (matchItems ci rest (ds.getLast? <|> prev) s1).map
             (fun nc => (nc.1 + ds.length, ds))
       | [] =>
         (matchItems ci rest (ds.getLast? <|> prev) s1).map
           (fun nc => (nc.1 + ds.length, ds)))
  | .grpSlash :: rest, prev, s =>
    let d1 := s.takeWhile isDigitB
    if d1.length = 0 then none
    else
      (match s.drop d1.length with
       | '/' :: s1 =>
         let d2 := s1.takeWhile isDigitB
         if d2.length = 0 then none
         else
           (matchItems ci rest (d2.getLast? <|> prev) (s1.drop d2.length)).map
             (fun nc => (nc.1 + d1.length + 1 + d2.length, d1 ++ '/' :: d2))
       | _ => none)
  | .alpha1 :: rest, _prev, s =>
    (match s with
     | a :: s' =>
       if (if ci then isAlphaB a else decide ('A' ≤ a ∧ a ≤ 'Z')) then
         (matchItems ci rest (some a) s').map (fun nc => (nc.1 + 1, nc.2))
       else none
     | [] => none)
  | .alphaPlus :: rest, prev, s =>
    let run := s.takeWhile (fun a => if ci then isAlphaB a else decide ('a' ≤ a ∧ a ≤ 'z'))
    if run.length = 0 then none
    else (matchItems ci rest (run.getLast? <|> prev) (s.drop run.length)).map
      (fun nc => (nc.1 + run.length, nc.2))
  | .rep12digits :: rest, _prev, s =>
    (match s with
     | a :: b :: s2 =>
       if isDigitB a ∧ isDigitB b then
         match matchItems ci rest (some b) s2 with
         | some nc => some (nc.1 + 2, nc.2)
         | none =>
           if isDigitB a then
             (matchItems ci rest (some a) (b :: s2)).map
               (fun nc => (nc.1 + 1, nc.2))
           else none
       else if isDigitB a then
         (matchItems ci rest (some a) (b :: s2)).map (fun nc => (nc.1 + 1, nc.2))
       else none
     | [a] =>
       if isDigitB a then
         (matchItems ci rest (some a) []).map (fun nc => (nc.1 + 1, nc.2))
       else none
     | [] => none)
  | .rep4digits :: rest, prev, s =>
    let ds := s.take 4
    if ds.length = 4 ∧ ds.all isDigitB then
      (matchItems ci rest (ds.getLast? <|> prev) (s.drop 4)).map
        (fun nc => (nc.1 + 4, nc.2))
    else none
  | .chClass cs :: rest, _prev, s =>
    (match s with
     | a :: s' =>
       if cs.contains a then
         (matchItems ci rest (some a) s').map (fun nc => (nc.1 + 1, nc.2))
       else none
     | [] => none)
  | .wordB :: rest, prev, s =>
    let pw := match prev with | some c => isWordB c | none => false
    let nw := match s with | c :: _ => isWordB c | [] => false
    if pw ≠ nw then matchItems ci rest prev s else none
  | .dotStarLit l :: rest, prev, s =>
    (match dotStarLitMatch ci l s with
     | some n =>
       (matchItems ci rest ((s.take n).getLast? <|> prev) (s.drop n)).map
         (fun nc => (nc.1 + n, nc.2))
     | none => none)
  | .monthLit ms :: rest, prev, s =>
    (match altLitMatch ci ms s with
     | some (n, s') =>
       (matchItems ci rest ((s.take n).getLast? <|> prev) s').map
         (fun nc => (nc.1 + n, nc.2))
     | none => none)

/-- The scanning loop of `re.finditer`: try a match at every position,
left to right; after a match, resume at its end (advancing at least one
character).  Produces `(start, end, group-1 capture)` triples. -/
def finditerGo (m : Option Char → List Char → Option (ℕ × List Char)) :
    ℕ → List Char → ℕ → Option Char → List (ℕ × ℕ × List Char)
  | 0, _, _, _ => []
  | _fuel + 1, [], pos, prev =>
    (match m prev [] with
     | some (n, cap) => [(pos, pos + n, cap)]
     | none => [])
  | fuel + 1, c :: rest, pos, prev =>
    match m prev (c :: rest) with
    | some (n, cap) =>
      if n = 0 then (pos, pos, cap) :: finditerGo m fuel rest (pos + 1) (some c)
      else (pos, pos + n, cap) ::
        finditerGo m fuel ((c :: rest).drop n) (pos + n)
          (((c :: rest).take n).getLast?)
    | none => finditerGo m fuel rest (pos + 1) (some c)

/-- `re.finditer(pattern, s)` for a single-branch pattern. -/
def reFinditer (ci : Bool) (p : List RItem) (s : List Char) :
    List (ℕ × ℕ × List Char) :=
  finditerGo (matchItems ci p) (s.length + 1) s 0 none

/-- `re.finditer` for an alternation of branches (used for the heading
patterns of the chunker): at each position the branches are tried in
order, as Python does. -/
def reFinditerAlt (ci : Bool) (branches : List (List RItem)) (s : List Char) :
    List (ℕ × ℕ × List Char) :=
  finditerGo (fun prev t => branches.findSome? (fun b => matchItems ci b prev t))
    (s.length + 1) s 0 none

/-- `re.search`: the leftmost match. -/
def reSearch (ci : Bool) (p : List RItem) (s : List Char) :
    Option (ℕ × ℕ × List Char) :=
  (reFinditer ci p s).head?

/-- `text[start:end]`. -/
def sliceStr (s : List Char) (a b : ℕ) : List Char := (s.drop a).take (b - a)

/-! ## Legal NER (`src/ner/legal_ner.py`)

Confidences in the source are the float literals 0.9, 0.95, 0.85, 0.7, 0.8;
they are embedded as naturals in hundredths (90, 95, 85, 70, 80), an
order- and equality-preserving encoding of those five doubles, which is all
the code ever does with them (`>`, `>=` comparisons and dataclass equality).
`Entity.metadata` (a dict with keys drawn from `act`, `section_number`,
`full_match`, or empty) is embedded as a record of three options; dataclass
equality coincides. -/

/-- `EntityType`. -/
inductive EntityType where
  | person | caseNumber | legalSection | court | date | penalty
  | legalTerm | statute | organization | judge | lawyer
deriving DecidableEq, Repr

/-- `Entity.metadata`. -/
structure EntityMeta where
  act : Option (List Char) := none
  sectionNumber : Option (List Char) := none
  fullMatch : Option (List Char) := none
deriving DecidableEq, Repr

/-- `Entity` (the dataclass); `endPos` models the field `end`;
`confidence` is in hundredths. -/
structure Entity where
  text : List Char
  entityType : EntityType
  start : ℕ
  endPos : ℕ
  confidence : ℕ
  meta : EntityMeta := {}
deriving DecidableEq, Repr

/-- `_init_section_patterns` (13 `(pattern, act)` pairs, in source order). -/
def sectionPatterns : List (List RItem × List Char) :=
  [ ([.lit "Section".toList, .ws1, .grpNum, .ws1, .lit "of".toList, .ws1,
      .lit "the".toList, .ws1, .lit "Indian".toList, .ws1, .lit "Penal".toList,
      .ws1, .lit "Code".toList], "IPC".toList)
  , ([.lit "Section".toList, .ws1, .grpNum, .ws1, .lit "IPC".toList],
      "IPC".toList)
  , ([.lit "IPC".toList, .ws1, .lit "Section".toList, .ws1, .grpNum],
      "IPC".toList)
  , ([.lit "u/s".toList, .optC '.', .ws0, .grpNum, .ws1, .lit "IPC".toList],
      "IPC".toList)
  , ([.lit "under".toList, .ws1, .lit "Section".toList, .ws1, .grpNum, .ws1,
      .lit "IPC".toList], "IPC".toList)
  , ([.lit "Section".toList, .ws1, .grpNum, .ws1, .lit "of".toList, .ws1,
      .lit "the".toList, .ws1, .lit "Code".toList, .ws1, .lit "of".toList,
      .ws1, .lit "Criminal".toList, .ws1, .lit "Procedure".toList],
      "CrPC".toList)
  , ([.lit "Section".toList, .ws1, .grpNum, .ws1, .lit "of".toList, .ws1,
      .lit "Cr".toList, .optC '.', .lit "P".toList, .optC '.',
      .lit "C".toList, .optC '.'], "CrPC".toList)
  , ([.lit "Cr".toList, .optC '.', .lit "P".toList, .optC '.',
      .lit "C".toList, .optC '.', .ws1, .lit "Section".toList, .ws1, .grpNum],
      "CrPC".toList)
  , ([.lit "u/s".toList, .optC '.', .ws0, .grpNum, .ws1, .lit "Cr".toList,
      .optC '.', .lit "P".toList, .optC '.', .lit "C".toList, .optC '.'],
      "CrPC".toList)
  , ([.lit "Section".toList, .ws1, .grpNum, .ws1, .lit "of".toList, .ws1,
      .lit "the".toList, .ws1, .lit "Evidence".toList, .ws1,
      .lit "Act".toList], "Evidence_Act".toList)
  , ([.lit "Evidence".toList, .ws1, .lit "Act".toList, .ws1,
      .lit "Section".toList, .ws1, .grpNum], "Evidence_Act".toList)
  , ([.lit "Article".toList, .ws1, .grpNum, .ws1, .lit "of".toList, .ws1,
      .lit "the".toList, .ws1, .lit "Constitution".toList],
      "Constitution".toList)
  , ([.lit "Constitution".toList, .ws1, .lit "Article".toList, .ws1, .grpNum],
      "Constitution".toList) ]

/-- `_init_case_patterns`. -/
def caseNumberPatterns : List (List RItem) :=
  [ [.lit "Crl".toList, .optC '.', .ws0, .lit "A".toList, .optC '.', .ws0,
     .lit "No".toList, .optC '.', .ws0, .grpSlash]
  , [.lit "Criminal".toList, .ws1, .lit "Appeal".toList, .ws1,
     .lit "No".toList, .optC '.', .ws0, .grpSlash]
  , [.lit "W".toList, .optC '.', .lit "P".toList, .optC '.', .ws0,
     .optC '(', .lit "C".toList, .optC ')', .ws0, .lit "No".toList,
     .optC '.', .ws0, .grpSlash]
  , [.lit "Writ".toList, .ws1, .lit "Petition".toList, .ws1,
     .lit "No".toList, .optC '.', .ws0, .grpSlash]
  , [.lit "SLP".toList, .ws0, .optC '(', .lit "C".toList, .optC ')', .ws0,
     .lit "No".toList, .optC '.', .ws0, .grpSlash]
  , [.lit "Special".toList, .ws1, .lit "Leave".toList, .ws1,
     .lit "Petition".toList, .ws1, .lit "No".toList, .optC '.', .ws0,
     .grpSlash]
  , [.lit "Civil".toList, .ws1, .lit "Appeal".toList, .ws1,
     .lit "No".toList, .optC '.', .ws0, .grpSlash]
  , [.lit "Cr".toList, .optC '.', .ws0, .lit "No".toList, .optC '.', .ws0,
     .grpSlash] ]

/-- `_init_court_patterns`. -/
def courtPatterns : List (List RItem) :=
  [ [.lit "Supreme".toList, .ws1, .lit "Court".toList, .ws1,
     .lit "of".toList, .ws1, .lit "India".toList]
  , [.lit "High".toList, .ws1, .lit "Court".toList, .ws1, .lit "of".toList,
     .ws1, .alpha1, .alphaPlus]
  , [.lit "District".toList, .ws1, .lit "Court".toList]
  , [.lit "Sessions".toList, .ws1, .lit "Court".toList]
  , [.lit "Magistrate".toList, .ws1, .lit "Court".toList] ]

/-- `_init_statute_patterns`. -/
def statutePatterns : List (List RItem) :=
  [ [.lit "Indian".toList, .ws1, .lit "Penal".toList, .ws1, .lit "Code".toList]
  , [.lit "Code".toList, .ws1, .lit "of".toList, .ws1, .lit "Criminal".toList,
     .ws1, .lit "Procedure".toList]
  , [.lit "Evidence".toList, .ws1, .lit "Act".toList]
  , [.lit "Constitution".toList, .ws1, .lit "of".toList, .ws1,
     .lit "India".toList]
  , [.lit "Criminal".toList, .ws1, .lit "Procedure".toList, .ws1,
     .lit "Code".toList] ]

/-- `_init_legal_term_patterns`. -/
def legalTermPatterns : List (List RItem) :=
  [ [.wordB, .lit "Acquittal".toList, .wordB]
  , [.wordB, .lit "Conviction".toList, .wordB]
  , [.wordB, .lit "Bail".toList, .wordB]
  , [.wordB, .lit "Appeal".toList, .wordB]
  , [.wordB, .lit "Revision".toList, .wordB]
  , [.wordB, .lit "Petition".toList, .wordB]
  , [.wordB, .lit "Writ".toList, .wordB]
  , [.wordB, .lit "Habeas".toList, .ws1, .lit "Corpus".toList, .wordB]
  , [.wordB, .lit "Mandamus".toList, .wordB] ]

/-- The month names of the second date pattern. -/
def monthNames : List (List Char) :=
  ["January".toList, "February".toList, "March".toList, "April".toList,
   "May".toList, "June".toList, "July".toList, "August".toList,
   "September".toList, "October".toList, "November".toList,
   "December".toList]

/-- `_extract_dates` patterns (matched **without** `re.IGNORECASE`). -/
def datePatterns : List (List RItem) :=
  [ [.rep12digits, .chClass ['.', '/', '-'], .rep12digits,
     .chClass ['.', '/', '-'], .rep4digits]
  , [.rep12digits, .ws1, .monthLit monthNames, .ws1, .rep4digits] ]

/-- `_extract_sections`: every match of every section pattern, text
`f"{act} Section {num}"`, confidence 0.9, metadata `{act, section_number}`. -/
def extractSections (text : List Char) : List Entity :=
  sectionPatterns.flatMap (fun pa =>
    (reFinditer true pa.1 text).map (fun m =>
      { text := pa.2 ++ ' ' :: "Section ".toList ++ m.2.2
        entityType := .legalSection
        start := m.1
        endPos := m.2.1
        confidence := 90
        meta := { act := some pa.2, sectionNumber := some m.2.2 } }))

/-- `_extract_case_numbers`: text is capture group 1, confidence 0.95,
metadata `{full_match}`. -/
def extractCaseNumbers (text : List Char) : List Entity :=
  caseNumberPatterns.flatMap (fun p =>
    (reFinditer true p text).map (fun m =>
      { text := m.2.2
        entityType := .caseNumber
        start := m.1
        endPos := m.2.1
        confidence := 95
        meta := { fullMatch := some (sliceStr text m.1 m.2.1) } }))

/-- `_extract_courts`: whole-match text, confidence 0.9. -/
def extractCourts (text : List Char) : List Entity :=
  courtPatterns.flatMap (fun p =>
    (reFinditer true p text).map (fun m =>
      { text := sliceStr text m.1 m.2.1
        entityType := .court
        start := m.1
        endPos := m.2.1
        confidence := 90 }))

/-- `_extract_statutes`: whole-match text, confidence 0.85. -/
def extractStatutes (text : List Char) : List Entity :=
  statutePatterns.flatMap (fun p =>
    (reFinditer true p text).map (fun m =>
      { text := sliceStr text m.1 m.2.1
        entityType := .statute
        start := m.1
        endPos := m.2.1
        confidence := 85 }))

/-- `_extract_legal_terms`: whole-match text, confidence 0.7. -/
def extractLegalTerms (text : List Char) : List Entity :=
  legalTermPatterns.flatMap (fun p =>
    (reFinditer true p text).map (fun m =>
      { text := sliceStr text m.1 m.2.1
        entityType := .legalTerm
        start := m.1
        endPos := m.2.1
        confidence := 70 }))

/-- `_extract_dates`: whole-match text, confidence 0.8 (case-sensitive). -/
def extractDates (text : List Char) : List Entity :=
  datePatterns.flatMap (fun p =>
    (reFinditer false p text).map (fun m =>
      { text := sliceStr text m.1 m.2.1
        entityType := .date
        start := m.1
        endPos := m.2.1
        confidence := 80 }))

/-- The concatenated scanner output of `extract_entities`, before
`_remove_overlaps`. -/
def extractCandidates (text : List Char) : List Entity :=
  extractSections text ++ extractCaseNumbers text ++ extractCourts text ++
    extractStatutes text ++ extractLegalTerms text ++ extractDates text

/-- `key=lambda e: (e.start, -e.confidence)` as a boolean ≤ comparison. -/
def entLe (a b : Entity) : Bool :=
  a.start < b.start ∨ (a.start = b.start ∧ b.confidence ≤ a.confidence)

/-- `key=lambda e: e.start`. -/
def startLe (a b : Entity) : Bool := a.start ≤ b.start

/-- `not (entity.end <= existing.start or entity.start >= existing.end)`. -/
def overlapsB (entity existing : Entity) : Bool :=
  ¬ (entity.endPos ≤ existing.start ∨ existing.endPos ≤ entity.start)

/-- One iteration of the `_remove_overlaps` walk: find the first
already-accepted entity overlapping the incoming one; keep the incoming
entity only when it has strictly higher confidence, evicting that
(first-overlapping) accepted entity. -/
def rmStep (filtered : List Entity) (e : Entity) : List Entity :=
  match filtered.find? (fun ex => overlapsB e ex) with
  | none => filtered ++ [e]
  | some ex =>
    if ex.confidence < e.confidence then (filtered.erase ex) ++ [e]
    else filtered

/-- `LegalNER._remove_overlaps`. -/
def removeOverlaps (es : List Entity) : List Entity :=
  if es.isEmpty then []
  else pySorted startLe ((pySorted entLe es).foldl rmStep [])

/-- `LegalNER.extract_entities`. -/
def extractEntities (text : List Char) : List Entity :=
  removeOverlaps (extractCandidates text)

/-- Spans of two entities are disjoint (the claim's no-overlap relation). -/
def entDisj (a b : Entity) : Prop :=
  a.endPos ≤ b.start ∨ b.endPos ≤ a.start

/-! ## Chunker (`src/retrieval/chunking.py`)

`_count_tokens` is modelled in its deterministic in-repo form, the
`tokenizer is None` fallback `int(len(text.split()) * 1.3)`: embedded as
`13 * wordcount / 10` in `ℕ` (for realistic word counts the IEEE double
product `n * 1.3` never rounds below the exact value, so `int` truncation
equals this rational floor).  `page_number` and `metadata` are always
`None`/`{}` in `_chunk_text` and are omitted from the record. -/

/-- Chunker configuration (`chunk_size`, `chunk_overlap`, `min_chunk_size`;
defaults 512, 50, 100). -/
structure ChunkerCfg where
  chunkSize : ℕ := 512
  chunkOverlap : ℕ := 50
  minChunkSize : ℕ := 100
deriving DecidableEq, Repr

/-- `_count_tokens` (fallback path). -/
def countTokens (s : List Char) : ℕ := 13 * (pySplitWs s).length / 10

/-- A produced chunk (`Chunk` dataclass; `endPos` models `end_pos`). -/
structure Chunk where
  text : List Char
  startPos : ℕ
  endPos : ℕ
  sectionType : Option (List Char) := none
deriving DecidableEq, Repr

/-- The field splitting of `re.split(r'(?<=[.!?])\s+', text)`: a separator
is a maximal whitespace run whose preceding character is `.`, `!` or `?`.
`insep` records that the scan is inside such a run. -/
def reSplitSentGo (prev : Option Char) (insep : Bool) (acc : List Char) :
    List Char → List (List Char)
  | [] => [acc.reverse]
  | c :: rest =>
    if insep then
      if isPySpace c then reSplitSentGo (some c) true acc rest
      else reSplitSentGo (some c) false [c] rest
    else
      if isPySpace c ∧ (prev = some '.' ∨ prev = some '!' ∨ prev = some '?')
      then acc.reverse :: reSplitSentGo (some c) true [] rest
      else reSplitSentGo (some c) false (c :: acc) rest

/-- `_split_sentences`: regex split, then strip fields and drop empties. -/
def splitSentences (text : List Char) : List (List Char) :=
  ((reSplitSentGo none false [] text).map pyStrip).filter (fun s => ¬ s.isEmpty)

/-- The backward walk of `_get_overlap_text`: take trailing sentences while
they fit in the overlap budget, stopping at the first that does not. -/
def overlapGo (cap : ℕ) : List (List Char) → ℕ → List (List Char) → List (List Char)
  | [], _, acc => acc
  | s :: rest, tok, acc =>
    if tok + countTokens s ≤ cap then overlapGo cap rest (tok + countTokens s) (s :: acc)
    else acc

/-- `_get_overlap_text`. -/
def getOverlapText (cfg : ChunkerCfg) (chunkSentences : List (List Char)) : List Char :=
  if chunkSentences.length < 2 then []
  else joinSp (overlapGo cfg.chunkOverlap chunkSentences.reverse 0 [])

/-- The sentence-accumulation loop of `_chunk_text` (the list of produced
chunks; the Python code appends them to `chunks`). -/
def chunkLoop (cfg : ChunkerCfg) (sty : Option (List Char)) :
    List (List Char) → List (List Char) → ℕ → ℕ → List Chunk
  | [], cur, _tok, start =>
    if cur.isEmpty then []
    else
      if cfg.minChunkSize ≤ countTokens (joinSp cur) then
        [{ text := joinSp cur, startPos := start,
           endPos := start + (joinSp cur).length, sectionType := sty }]
      else []
  | s :: rest, cur, tok, start =>
    if cfg.chunkSize < tok + countTokens s ∧ ¬ cur.isEmpty then
      { text := joinSp cur, startPos := start,
        endPos := start + (joinSp cur).length, sectionType := sty } ::
      chunkLoop cfg sty rest (opt (getOverlapText cfg cur) ++ [s])
        (countTokens (getOverlapText cfg cur) + countTokens s)
        (start + (joinSp cur).length - (getOverlapText cfg cur).length)
    else chunkLoop cfg sty rest (cur ++ [s]) (tok + countTokens s) start
where
  /-- `[overlap_text] if overlap_text else []`. -/
  opt (ov : List Char) : List (List Char) := if ov.isEmpty then [] else [ov]

/-- `LegalChunker._chunk_text`. -/
def chunkText (cfg : ChunkerCfg) (text : List Char) (sty : Option (List Char))
    (startOffset : ℕ) : List Chunk :=
  chunkLoop cfg sty (splitSentences text) [] 0 startOffset

/-- A detected document section (`{'type','start','end','text'}`). -/
structure DocSection where
  type : List Char
  start : ℕ
  stop : ℕ
  text : List Char
deriving DecidableEq, Repr

/-- `self.section_patterns`, in dict insertion order; each value is an
alternation of uppercase heading literals. -/
def sectionMarkerPatterns : List (List Char × List (List RItem)) :=
  [ ("facts".toList,
      [[.lit "FACTS".toList],
       [.lit "FACTUAL".toList, .ws1, .lit "BACKGROUND".toList],
       [.lit "BACKGROUND".toList],
       [.lit "CASE".toList, .ws1, .lit "FACTS".toList]])
  , ("analysis".toList,
      [[.lit "ANALYSIS".toList], [.lit "DISCUSSION".toList],
       [.lit "REASONING".toList], [.lit "HELD".toList],
       [.lit "OBSERVATION".toList]])
  , ("conclusion".toList,
      [[.lit "CONCLUSION".toList], [.lit "DECISION".toList],
       [.lit "ORDER".toList], [.lit "JUDGMENT".toList]])
  , ("headnote".toList,
      [[.lit "HEADNOTE".toList], [.lit "SYNOPSIS".toList],
       [.lit "SUMMARY".toList]])
  , ("issue".toList,
      [[.lit "ISSUE".toList], [.lit "ISSUES".toList],
       [.lit "QUESTION".toList]]) ]

/-- The deduplication walk over the sorted sections: keep the first, then
keep a section only if its start is more than 500 past the last kept one. -/
def cleanSectGo (prevStart : ℕ) : List DocSection → List DocSection
  | [] => []
  | sec :: rest =>
    if prevStart + 500 < sec.start then sec :: cleanSectGo sec.start rest
    else cleanSectGo prevStart rest

/-- `LegalChunker._detect_sections`. -/
def detectSections (text : List Char) : List DocSection :=
  let raw := sectionMarkerPatterns.flatMap (fun tp =>
    (reFinditerAlt true tp.2 (pyUpper text)).map (fun m =>
      { type := tp.1, start := m.1, stop := m.2.1, text := text.drop m.2.1 }))
  match pySorted (fun a b => decide (a.start ≤ b.start)) raw with
  | [] => []
  | sec :: rest => sec :: cleanSectGo sec.start rest

/-- `LegalChunker.chunk` (returning the chunks themselves; the Python
method wraps each in a dict with the same fields). -/
def legalChunk (cfg : ChunkerCfg) (text : List Char) : List Chunk :=
  match detectSections text with
  | [] => chunkText cfg text none 0
  | secs => secs.flatMap (fun sec => chunkText cfg sec.text (some sec.type) sec.start)

/-- Concrete document for the C4 counterexample: a 4-word sentence, then a
401-word sentence, then a 77-word sentence. -/
def c4Text : List Char :=
  "a a a a. ".toList ++ (List.replicate 400 "a ".toList).flatten ++
    "b. ".toList ++ (List.replicate 76 "c ".toList).flatten ++ "d.".toList

/-! ## Dark zone detector (`src/retrieval/dark_zone_detector.py`)

`DarkZoneDetector` is modelled with its `context_window_size` as an explicit
parameter `cws` (default 500 at every construction site in the repo).  The
`resolution_suggestions` field (a pure function of the other fields, used
only for display) is omitted from the record. -/

/-- `explanation_indicators` (11 patterns, in source order; they are
searched **without** `re.IGNORECASE` against the lowercased context). -/
def explanationIndicators : List (List RItem) :=
  [ [.lit "as".toList, .ws1, .lit "provided".toList, .ws1, .lit "in".toList]
  , [.lit "according".toList, .ws1, .lit "to".toList]
  , [.lit "under".toList, .ws1, .lit "the".toList, .ws1,
     .lit "provisions".toList, .ws1, .lit "of".toList]
  , [.lit "as".toList, .ws1, .lit "per".toList]
  , [.lit "in".toList, .ws1, .lit "accordance".toList, .ws1,
     .lit "with".toList]
  , [.lit "which".toList, .ws1, .lit "states".toList]
  , [.lit "which".toList, .ws1, .lit "provides".toList]
  , [.lit "which".toList, .ws1, .lit "reads".toList]
  , [.lit "section".toList, .dotStarLit "provides".toList]
  , [.lit "section".toList, .dotStarLit "states".toList]
  , [.lit "as".toList, .ws1, .lit "defined".toList, .ws1, .lit "in".toList] ]

/-- `_get_context_window`: `text[max(0, start - cws) : min(len, end + cws)]`
(the `max 0` is the truncation of `ℕ` subtraction). -/
def getContextWindow (cws : ℕ) (text : List Char) (e : Entity) : List Char :=
  sliceStr text (e.start - cws) (min text.length (e.endPos + cws))

/-- The definitional-verb word list of `_is_section_explained`. -/
def definitionWords : List (List Char) :=
  ["means".toList, "refers".toList, "includes".toList, "defines".toList]

/-- `_is_section_explained`: an indicator match whose distance to the
**first occurrence of the normalized entity text** in the lowered context
(`str.find`, `-1` when absent) is below 200; otherwise substantial text
after that occurrence containing a definitional verb in its first 200
characters. -/
def isSectionExplained (context : List Char) (e : Entity) : Bool :=
  let ctxL := pyLower context
  let fnd : Int := pyFind ctxL (pyLower e.text)
  (explanationIndicators.any (fun pat =>
    (reFinditer false pat ctxL).any (fun m =>
      ((m.1 : Int) - fnd).natAbs < 200)))
  || (if 0 ≤ fnd then
        let after := context.drop (fnd.toNat + e.text.length)
        decide (100 < (pyStrip after).length) &&
          definitionWords.any (fun w => listInfix w ((pyLower after).take 200))
      else false)

/-- `_find_related_entities`: entities other than the target whose start
lies in `[max(0, target.start - cws), target.end + cws)`. -/
def findRelatedEntities (cws : ℕ) (allEntities : List Entity)
    (target : Entity) : List Entity :=
  allEntities.filter (fun e =>
    decide (e ≠ target ∧ target.start - cws ≤ e.start ∧
      e.start < target.endPos + cws))

/-- The `DarkZone` dataclass (without the display-only
`resolution_suggestions` and the constant `explanation_needed = True`). -/
structure DarkZone where
  sectionEntity : Entity
  contextWindow : List Char
  position : ℕ × ℕ
  related : List Entity
deriving DecidableEq, Repr

/-- `DarkZoneDetector.detect_dark_zones`. -/
def detectDarkZones (cws : ℕ) (text : List Char) : List DarkZone :=
  let entities := extractEntities text
  let sections := entities.filter (fun e =>
    decide (e.entityType = EntityType.legalSection))
  sections.filterMap (fun e =>
    let context := getContextWindow cws text e
    if isSectionExplained context e then none
    else some { sectionEntity := e, contextWindow := context,
                position := (e.start, e.endPos),
                related := findRelatedEntities cws entities e })

/-! ## Query enhancer (`src/retrieval/query_enhancer.py`)

`_extract_key_sentences` scores each sentence with
`keyword hits + length bonus + 0.5 * entity count`; these floats are dyadic
rationals represented exactly, so the model doubles every score
(`2*hits + 2*bonus + count`), an order- and equality-preserving encoding.
`_extract_legal_terms` returns `list(set(lowercased matches))[:10]`: the
iteration order of a CPython `str` set is salted-hash-dependent
(`PYTHONHASHSEED`), so `enhanceQuery` takes the resulting term list as an
explicit parameter `terms` instead of fixing one interpreter's order. -/

/-- The keyword list of `_extract_key_sentences`. -/
def keySentKeywords : List (List Char) :=
  ["section".toList, "act".toList, "code".toList, "judgment".toList,
   "court".toList, "conviction".toList, "acquittal".toList,
   "appeal".toList, "statute".toList]

/-- `re.split(r'[.!?]+', text)` followed by the strip-and-drop-empty
comprehension: splitting at every single punctuation character yields the
regex's fields plus empty strings between adjacent separators, which the
nonempty filter removes either way. -/
def splitPunctStrip (text : List Char) : List (List Char) :=
  ((text.splitOnP (fun c => decide (c = '.' ∨ c = '!' ∨ c = '?'))).map
    pyStrip).filter (fun s => ¬ s.isEmpty)

/-- A sentence's score, doubled: 2 per keyword occurring in the lowered
sentence, 2 for a word count in `[10, 30]`, 1 per extracted entity. -/
def sentScore2 (s : List Char) : ℕ :=
  2 * keySentKeywords.countP (fun kw => listInfix kw (pyLower s))
  + (if 10 ≤ (pySplitWs s).length ∧ (pySplitWs s).length ≤ 30 then 2 else 0)
  + (extractEntities s).length

/-- `_extract_key_sentences` (default `num_sentences = 5`): stable
descending sort by score, top 5 sentence texts. -/
def extractKeySentences (text : List Char) : List (List Char) :=
  let scored := (splitPunctStrip text).map (fun s => (s, sentScore2 s))
  ((pySorted (fun a b => decide (b.2 ≤ a.2)) scored).take 5).map Prod.fst

/-- The loop of `_deduplicate_query`: keep a word only when its lowercase
form was not seen before (`seen` holds the lowercase forms). -/
def dedupGo (seen : List (List Char)) : List (List Char) → List (List Char)
  | [] => []
  | w :: ws =>
    if pyLower w ∈ seen then dedupGo seen ws
    else w :: dedupGo (pyLower w :: seen) ws

/-- `_deduplicate_query`. -/
def dedupQuery (q : List Char) : List Char :=
  joinSp (dedupGo [] (pySplitWs q))

/-- `QueryEnhancer.enhance_query` (default flags, all `True`), returning
the `enhanced_query` field; `terms` is the `_extract_legal_terms` result
(see the section comment). -/
def enhanceQuery (terms : List (List Char)) (text : List Char) : List Char :=
  let entities := extractEntities text
  let darkZones := detectDarkZones 500 text
  let base := if 500 < text.length then extractKeySentences text else [text]
  let highConf := (entities.filter (fun e =>
    decide (80 ≤ e.confidence ∧
      (e.entityType = EntityType.legalSection ∨
       e.entityType = EntityType.caseNumber ∨
       e.entityType = EntityType.statute)))).map Entity.text
  let dzParts := darkZones.flatMap (fun dz =>
    dz.sectionEntity.text ::
      (if dz.contextWindow.isEmpty then []
       else [pyStrip (dz.contextWindow.take 150)]))
  dedupQuery (joinSp (base ++ highConf ++ dzParts ++ terms))

/-! ## Concrete fixtures for the dark-zone and enhancer claims -/

/-- A minimal text with one unexplained section mention. -/
def t9 : List Char := "IPC Section 302.".toList

/-- The entity extracted from `t9`. -/
def e9 : Entity :=
  { text := "IPC Section 302".toList, entityType := .legalSection,
    start := 0, endPos := 15, confidence := 90,
    meta := { act := some "IPC".toList,
              sectionNumber := some "302".toList } }

/-- The dark zone emitted on `t9`. -/
def dz9 : DarkZone :=
  { sectionEntity := e9, contextWindow := t9, position := (0, 15),
    related := [] }

/-- C6 counterexample text: 210 filler characters, then a section mention
immediately followed by the phrase `which states`. -/
def c6Text : List Char :=
  List.replicate 210 'z' ++
    ("Section 302 of the Indian Penal Code which states that the accused shall be punished.").toList

/-- C6 witness text: an explained section mention, then (past the
200-character proximity radius) an unexplained one. -/
def t6w : List Char :=
  "IPC Section 302 which states the punishment.".toList ++
    List.replicate 250 ' ' ++ "IPC Section 307.".toList

/-- The explained (first) entity of `t6w`. -/
def e6w : Entity :=
  { text := "IPC Section 302".toList, entityType := .legalSection,
    start := 0, endPos := 15, confidence := 90,
    meta := { act := some "IPC".toList,
              sectionNumber := some "302".toList } }

/-- The unexplained (second) entity of `t6w`. -/
def e6b : Entity :=
  { text := "IPC Section 307".toList, entityType := .legalSection,
    start := 294, endPos := 309, confidence := 90,
    meta := { act := some "IPC".toList,
              sectionNumber := some "307".toList } }

/-- The dark zone emitted on `t6w` (for the second mention only). -/
def dz6 : DarkZone :=
  { sectionEntity := e6b, contextWindow := t6w, position := (294, 309),
    related := [e6w] }

/-- C8 witness text. -/
def t8 : List Char := "Section 302 IPC".toList

/-- The entity extracted from `t8`. -/
def e8 : Entity :=
  { text := "IPC Section 302".toList, entityType := .legalSection,
    start := 0, endPos := 15, confidence := 90,
    meta := { act := some "IPC".toList,
              sectionNumber := some "302".toList } }

/-! ## Supporting lemmas -/

theorem pyInsert_perm (le : α → α → Bool) (x : α) (l : List α) :
    List.Perm (pyInsert le x l) (x :: l) := by
  induction l with
  | nil => simp [pyInsert]
  | cons y ys ih =>
    by_cases h : le x y
    · simp [pyInsert, h]
    · simp only [pyInsert, h, if_neg, Bool.false_eq_true, if_false]
      exact (ih.cons y).trans (List.Perm.swap x y ys)

theorem pySorted_perm (le : α → α → Bool) (l : List α) :
    List.Perm (pySorted le l) l := by
  induction l with
  | nil => exact List.Perm.refl _
  | cons x xs ih =>
    exact (pyInsert_perm le x (pySorted le xs)).trans (ih.cons x)

theorem pyInsert_pairwise (le : α → α → Bool)
    (htot : ∀ a b, le a b = false → le b a = true)
    (htrans : ∀ a b c, le a b = true → le b c = true → le a c = true)
    (x : α) (l : List α) (hl : l.Pairwise (fun a b => le a b = true)) :
    (pyInsert le x l).Pairwise (fun a b => le a b = true) := by
  induction l with
  | nil => simp [pyInsert]
  | cons y ys ih =>
    rcases hl with _ | ⟨hy, hys⟩
    by_cases h : le x y
    · simp only [pyInsert, h, if_true]
      refine List.Pairwise.cons ?_ (List.Pairwise.cons hy hys)
      intro b hb
      rcases List.mem_cons.mp hb with rfl | hb'
      · exact h
      · exact htrans x y b h (hy _ hb')
    · simp only [pyInsert, h, Bool.false_eq_true, if_false]
      refine List.Pairwise.cons ?_ (ih hys)
      intro b hb
      rcases List.mem_cons.mp ((pyInsert_perm le x ys).mem_iff.mp hb) with hbx | hb'
      · rw [hbx]
        exact htot x y (by simpa using h)
      · exact hy b hb'

theorem pySorted_pairwise (le : α → α → Bool)
    (htot : ∀ a b, le a b = false → le b a = true)
    (htrans : ∀ a b c, le a b = true → le b c = true → le a c = true)
    (l : List α) :
    (pySorted le l).Pairwise (fun a b => le a b = true) := by
  induction l with
  | nil => simp [pySorted]
  | cons x xs ih => exact pyInsert_pairwise le htot htrans x _ ih

theorem filter_pyInsert_pos (le : α → α → Bool) (p : α → Bool) (x : α) (m : List α)
    (hpx : p x = true) (htie : ∀ y ∈ m, p y = true → le x y = true) :
    (pyInsert le x m).filter p = x :: m.filter p := by
  induction m with
  | nil => simp [pyInsert, hpx]
  | cons y ys ih =>
    by_cases h : le x y
    · simp [pyInsert, h, hpx]
    · have hpy : p y = false := by
        by_contra hc
        exact h (htie y (List.mem_cons_self y ys) (by simpa using hc))
      simp only [pyInsert, h, Bool.false_eq_true, if_false, List.filter_cons, hpy]
      exact ih (fun z hz hp => htie z (List.mem_cons_of_mem y hz) hp)

theorem filter_pyInsert_neg (le : α → α → Bool) (p : α → Bool) (x : α) (m : List α)
    (hpx : p x = false) :
    (pyInsert le x m).filter p = m.filter p := by
  induction m with
  | nil => simp [pyInsert, hpx]
  | cons y ys ih =>
    by_cases h : le x y
    · simp [pyInsert, h, hpx]
    · simp only [pyInsert, h, Bool.false_eq_true, if_false, List.filter_cons]
      cases hpy : p y <;> simp [hpy, ih]

/-- Stability of `pySorted`: elements inside one tie class (all satisfying `p`,
all pairwise tied under `le`) keep their original relative order. -/
theorem pySorted_stable_filter (le : α → α → Bool) (p : α → Bool)
    (hP : ∀ a b, p a = true → p b = true → le a b = true) (l : List α) :
    (pySorted le l).filter p = l.filter p := by
  induction l with
  | nil => simp [pySorted]
  | cons x xs ih =>
    cases hpx : p x with
    | true =>
      have h1 := filter_pyInsert_pos le p x (pySorted le xs) hpx
        (fun y hy hpy => hP x y hpx hpy)
      simp [pySorted, h1, List.filter_cons, hpx, ih]
    | false =>
      have h1 := filter_pyInsert_neg le p x (pySorted le xs) hpx
      simp [pySorted, h1, List.filter_cons, hpx, ih]

theorem tblContents_set_of_none (l : List (Option ℕ)) (i x : ℕ)
    (h : l.getD i (some 0) = none) :
    List.Perm (tblContents (l.set i (some x))) (x :: tblContents l) := by
  induction l generalizing i with
  | nil => simp [List.getD] at h
  | cons y ys ih =>
    cases i with
    | zero =>
      simp only [List.getD_cons_zero] at h
      subst h
      simp [tblContents, List.filterMap_cons]
    | succ i =>
      simp only [List.getD_cons_succ] at h
      have hih := ih i h
      cases y with
      | none =>
        simpa [tblContents, List.filterMap_cons] using hih
      | some a =>
        simp only [tblContents, List.set_cons_succ, List.filterMap_cons] at hih ⊢
        exact (hih.cons a).trans (List.Perm.swap x a _)

theorem tblContents_putAtEmpty (t : List (Option ℕ)) (i x : ℕ) :
    List.Perm (tblContents (putAtEmpty t i x)) (x :: tblContents t) := by
  unfold putAtEmpty
  by_cases h : t.getD i (some 0) = none
  · rw [if_pos h]
    exact tblContents_set_of_none t i x h
  · rw [if_neg h]
    generalize hf : List.findIdx? (fun y => decide (y = none)) t = r
    cases r with
    | none =>
      simp [tblContents, List.filterMap_append]
    | some j =>
      dsimp only
      by_cases hj : t.getD j (some 0) = none
      · rw [if_pos hj]
        exact tblContents_set_of_none t j x hj
      · rw [if_neg hj]
        simp [tblContents, List.filterMap_append]

theorem tblContents_tblInsert (t : List (Option ℕ)) (x : ℕ) :
    List.Perm (tblContents (tblInsert t x)) (x :: tblContents t) :=
  tblContents_putAtEmpty t _ x

theorem tblContents_foldl_tblInsert (xs : List ℕ) (t : List (Option ℕ)) :
    List.Perm (tblContents (xs.foldl tblInsert t)) (xs ++ tblContents t) := by
  induction xs generalizing t with
  | nil => simp
  | cons x xs ih =>
    simp only [List.foldl_cons, List.cons_append]
    exact ((ih (tblInsert t x)).trans
      ((List.Perm.append_left xs (tblContents_tblInsert t x)).trans
        List.perm_middle))

theorem tblContents_replicate_none (n : ℕ) :
    tblContents (List.replicate n none) = [] := by
  induction n with
  | zero => rfl
  | succ n ih => simp [tblContents, List.replicate_succ, List.filterMap_cons]

theorem tblContents_maybeResize (t : List (Option ℕ)) :
    List.Perm (tblContents (maybeResize t)) (tblContents t) := by
  unfold maybeResize
  by_cases h : (tblContents t).length * 5 ≥ (t.length - 1) * 3
  · rw [if_pos h]
    refine (tblContents_foldl_tblInsert _ _).trans ?_
    rw [tblContents_replicate_none]
    simp
  · rw [if_neg h]

theorem tblContents_pySetAdd (t : List (Option ℕ)) (x : ℕ) :
    (x ∈ tblContents t ∧ pySetAdd t x = t) ∨
    (x ∉ tblContents t ∧
      List.Perm (tblContents (pySetAdd t x)) (x :: tblContents t)) := by
  by_cases h : x ∈ tblContents t
  · exact Or.inl ⟨h, by simp [pySetAdd, h]⟩
  · refine Or.inr ⟨h, ?_⟩
    simp only [pySetAdd, h, if_neg, if_false]
    exact (tblContents_maybeResize _).trans (tblContents_tblInsert t x)

theorem nodup_tblContents_pySetAdd (t : List (Option ℕ)) (x : ℕ)
    (h : (tblContents t).Nodup) : (tblContents (pySetAdd t x)).Nodup := by
  rcases tblContents_pySetAdd t x with ⟨_, heq⟩ | ⟨hx, hperm⟩
  · rw [heq]; exact h
  · exact (hperm.nodup_iff).mpr (List.nodup_cons.mpr ⟨hx, h⟩)

theorem mem_tblContents_pySetAdd (t : List (Option ℕ)) (x a : ℕ) :
    a ∈ tblContents (pySetAdd t x) ↔ a = x ∨ a ∈ tblContents t := by
  rcases tblContents_pySetAdd t x with ⟨hx, heq⟩ | ⟨hx, hperm⟩
  · rw [heq]
    constructor
    · exact Or.inr
    · rintro (rfl | ha)
      · exact hx
      · exact ha
  · rw [hperm.mem_iff]
    simp

theorem nodup_tblContents_foldl_pySetAdd (xs : List ℕ) (t : List (Option ℕ))
    (h : (tblContents t).Nodup) :
    (tblContents (xs.foldl pySetAdd t)).Nodup := by
  induction xs generalizing t with
  | nil => exact h
  | cons x xs ih => exact ih _ (nodup_tblContents_pySetAdd t x h)

theorem mem_tblContents_foldl_pySetAdd (xs : List ℕ) (t : List (Option ℕ))
    (a : ℕ) :
    a ∈ tblContents (xs.foldl pySetAdd t) ↔ a ∈ tblContents t ∨ a ∈ xs := by
  induction xs generalizing t with
  | nil => simp
  | cons x xs ih =>
    simp only [List.foldl_cons, ih, mem_tblContents_pySetAdd, List.mem_cons]
    tauto

/-- The modelled set iteration order has no duplicates. -/
theorem pySetOrder_nodup (xs : List ℕ) : (pySetOrder xs).Nodup :=
  nodup_tblContents_foldl_pySetAdd xs _ (by rw [tblContents_replicate_none]; exact List.nodup_nil)

/-- The modelled set contains exactly the inserted elements. -/
theorem mem_pySetOrder (xs : List ℕ) (a : ℕ) : a ∈ pySetOrder xs ↔ a ∈ xs := by
  unfold pySetOrder
  rw [mem_tblContents_foldl_pySetAdd, tblContents_replicate_none]
  simp

theorem dedupFirst_go_eq_self (l : List ℕ) : ∀ (seen : List ℕ), l.Nodup →
    (∀ a ∈ l, a ∉ seen) → dedupFirst.go seen l = l := by
  induction l with
  | nil => intro seen _ _; rfl
  | cons x xs ih =>
    intro seen h hdisj
    rw [List.nodup_cons] at h
    rw [dedupFirst.go, if_neg (hdisj x (List.mem_cons_self x xs))]
    congr 1
    refine ih (x :: seen) h.2 ?_
    intro a ha
    rw [List.mem_cons]
    rintro (rfl | hs)
    · exact h.1 ha
    · exact hdisj a (List.mem_cons_of_mem x ha) hs

theorem dedupFirst_eq_self (l : List ℕ) (h : l.Nodup) : dedupFirst l = l :=
  dedupFirst_go_eq_self l [] h (by simp)

theorem rankOfAux_eq_none_iff (id : ℕ) (l : List (ℕ × ℚ)) (i : ℕ) :
    rankOfAux id l i = none ↔ id ∉ l.map Prod.fst := by
  induction l generalizing i with
  | nil => simp [rankOfAux]
  | cons x xs ih =>
    rw [rankOfAux, List.map_cons]
    cases hr : rankOfAux id xs (i + 1) with
    | some r =>
      have hm : id ∈ xs.map Prod.fst := by
        by_contra hc
        rw [(ih (i + 1)).mpr hc] at hr
        exact Option.noConfusion hr
      simp [hm]
    | none =>
      have hnm := (ih (i + 1)).mp hr
      by_cases hx : x.1 = id
      · simp [hx]
      · simp only [List.mem_cons, hnm, or_false]
        constructor
        · intro _ he
          exact hx he.symm
        · intro _
          simp [hx]

theorem rankOfAux_nodup (id : ℕ) (l : List (ℕ × ℚ)) (i : ℕ)
    (h : (l.map Prod.fst).Nodup) (hm : id ∈ l.map Prod.fst) :
    rankOfAux id l i = some (i + (l.map Prod.fst).indexOf id + 1) := by
  induction l generalizing i with
  | nil => simp at hm
  | cons x xs ih =>
    rw [List.map_cons, List.nodup_cons] at h
    rw [List.map_cons] at hm ⊢
    by_cases hin : id ∈ xs.map Prod.fst
    · have hne : x.1 ≠ id := fun he => h.1 (he ▸ hin)
      rw [rankOfAux, ih (i + 1) h.2 hin]
      rw [List.indexOf_cons_ne _ hne]
      dsimp only
      congr 1
      omega
    · have hx : x.1 = id := by
        rcases List.mem_cons.mp hm with he | hm'
        · exact he.symm
        · exact absurd hm' hin
      rw [rankOfAux, (rankOfAux_eq_none_iff id xs (i + 1)).mpr hin]
      dsimp only
      rw [if_pos hx, ← hx, List.indexOf_cons_self]

/-- Under distinct chunk ids, the modelled RRF contribution is the
specification's formula: `1/(rank + k)` for the 1-indexed first position,
`0` when absent. -/
theorem rrfContrib_spec (l : List (ℕ × ℚ)) (k id : ℕ)
    (h : (l.map Prod.fst).Nodup) :
    rrfContrib l k id =
      if id ∈ l.map Prod.fst
      then 1 / (((l.map Prod.fst).indexOf id : ℚ) + 1 + (k : ℚ))
      else 0 := by
  by_cases hm : id ∈ l.map Prod.fst
  · rw [if_pos hm]
    unfold rrfContrib rankOf
    rw [rankOfAux_nodup id l 0 h hm]
    push_cast
    ring_nf
  · rw [if_neg hm]
    unfold rrfContrib rankOf
    rw [(rankOfAux_eq_none_iff id l 0).mpr hm]

/-! ## Claim theorems: hybrid retrieval -/

/-- **C2**: for every pair of candidate lists (with distinct chunk ids, as
produced by the retrievers) and every fusion parameter `k`, the fused score of
each chunk equals the sum over the retrievers containing it of `1/(rank + k)`
with 1-indexed ranks and 0 contribution from a list it is absent from; the
output is sorted by score descending and truncated to `top`; a chunk in only
one list at rank `r` scores exactly `1/(r + k)`; and fusing a list with an
identical copy of itself scores every chunk `2/(rank + k)` and preserves the
single-list order. -/
theorem claim_C2_rrf_fusion (b v : List (ℕ × ℚ)) (k top : ℕ)
    (hb : (b.map Prod.fst).Nodup) (hv : (v.map Prod.fst).Nodup) :
    (∀ p ∈ reciprocalRankFusion b v k top,
        p.2 = (if p.1 ∈ b.map Prod.fst
                then 1 / (((b.map Prod.fst).indexOf p.1 : ℚ) + 1 + (k : ℚ)) else 0)
            + (if p.1 ∈ v.map Prod.fst
                then 1 / (((v.map Prod.fst).indexOf p.1 : ℚ) + 1 + (k : ℚ)) else 0))
    ∧ (reciprocalRankFusion b v k top).Pairwise (fun p q => q.2 ≤ p.2)
    ∧ (reciprocalRankFusion b v k top).length ≤ top
    ∧ (∀ p ∈ reciprocalRankFusion b v k top, p.1 ∈ b.map Prod.fst →
        p.1 ∉ v.map Prod.fst →
        p.2 = 1 / (((b.map Prod.fst).indexOf p.1 : ℚ) + 1 + (k : ℚ)))
    ∧ reciprocalRankFusion b b k top
        = (b.enum.map (fun ip => (ip.2.1, 2 / ((ip.1 : ℚ) + 1 + (k : ℚ))))).take top := by
  have hscore : ∀ (v' : List (ℕ × ℚ)) (p : ℕ × ℚ),
      p ∈ reciprocalRankFusion b v' k top →
      p.2 = rrfContrib b k p.1 + rrfContrib v' k p.1 := by
    intro v' p hp
    have hp1 : p ∈ pySorted scoreGe (rrfScored b v' k) := List.take_subset _ _ hp
    have hp2 : p ∈ rrfScored b v' k := (pySorted_perm _ _).mem_iff.mp hp1
    rcases List.mem_map.mp hp2 with ⟨id, _hid, rfl⟩
    rfl
  have htot : ∀ a c : ℕ × ℚ, scoreGe a c = false → scoreGe c a = true := by
    intro a c h
    simp only [scoreGe, decide_eq_false_iff_not, not_le] at h
    simpa [scoreGe] using le_of_lt h
  have htrans : ∀ a c d : ℕ × ℚ,
      scoreGe a c = true → scoreGe c d = true → scoreGe a d = true := by
    intro a c d h1 h2
    simp only [scoreGe, decide_eq_true_eq] at h1 h2 ⊢
    exact h2.trans h1
  have hsorted : ∀ (v' : List (ℕ × ℚ)),
      (reciprocalRankFusion b v' k top).Pairwise (fun p q => q.2 ≤ p.2) := by
    intro v'
    have h1 := pySorted_pairwise scoreGe htot htrans (rrfScored b v' k)
    have h2 := List.Pairwise.sublist (List.take_sublist top _) h1
    exact h2.imp (fun h => by simpa [scoreGe] using h)
  refine ⟨?_, hsorted v, List.length_take_le _ _, ?_, ?_⟩
  · intro p hp
    rw [hscore v p hp, rrfContrib_spec b k p.1 hb, rrfContrib_spec v k p.1 hv]
  · intro p hp hmb hmv
    rw [hscore v p hp, rrfContrib_spec b k p.1 hb, rrfContrib_spec v k p.1 hv,
      if_pos hmb, if_neg hmv, add_zero]
  · -- self-fusion
    have hids_mem : ∀ a, a ∈ allChunkIds b b ↔ a ∈ b.map Prod.fst := by
      intro a
      unfold allChunkIds
      rw [mem_pySetOrder, dedupFirst_eq_self _ hb]
      simp
    have hperm_ids : List.Perm (allChunkIds b b) (b.map Prod.fst) :=
      (List.perm_ext_iff_of_nodup (pySetOrder_nodup _) hb).mpr hids_mem
    have hperm1 : List.Perm (rrfScored b b k)
        ((b.map Prod.fst).map
          (fun id => (id, rrfContrib b k id + rrfContrib b k id))) :=
      hperm_ids.map _
    have hmapg : (b.map Prod.fst).map
        (fun id => (id, rrfContrib b k id + rrfContrib b k id))
        = b.enum.map (fun ip => (ip.2.1, 2 / ((ip.1 : ℚ) + 1 + (k : ℚ)))) := by
      apply List.ext_getElem
      · simp
      · intro i h1 h2
        have hlen : i < b.length := by simpa using h2
        simp only [List.getElem_map, List.getElem_enum]
        have hm : b[i].1 ∈ b.map Prod.fst :=
          List.mem_map_of_mem Prod.fst (List.getElem_mem hlen)
        have hidx : List.indexOf b[i].1 (List.map Prod.fst b) = i := by
          have h3 := List.indexOf_getElem hb i (by simpa using hlen)
          simpa using h3
        rw [rrfContrib_spec b k _ hb, if_pos hm, hidx, div_add_div_same,
          one_add_one_eq_two]
    rw [hmapg] at hperm1
    have hEFsorted : (b.enum.map
        (fun ip => (ip.2.1, 2 / ((ip.1 : ℚ) + 1 + (k : ℚ))))).Pairwise
        (fun p q => q.2 < p.2) := by
      rw [List.pairwise_iff_getElem]
      intro i j hi hj hij
      simp only [List.getElem_map, List.getElem_enum]
      have hipos : (0 : ℚ) < (i : ℚ) + 1 + (k : ℚ) := by positivity
      refine div_lt_div_of_pos_left (by norm_num) hipos ?_
      have : (i : ℚ) < (j : ℚ) := by exact_mod_cast hij
      linarith
    have hperm2 : List.Perm (pySorted scoreGe (rrfScored b b k))
        (b.enum.map (fun ip => (ip.2.1, 2 / ((ip.1 : ℚ) + 1 + (k : ℚ))))) :=
      (pySorted_perm _ _).trans hperm1
    have hnodup_snd : ((b.enum.map
        (fun ip => (ip.2.1, 2 / ((ip.1 : ℚ) + 1 + (k : ℚ))))).map Prod.snd).Nodup :=
      List.pairwise_map.mpr (hEFsorted.imp (fun h => (ne_of_gt h)))
    have hnodup_snd2 : ((pySorted scoreGe (rrfScored b b k)).map Prod.snd).Nodup :=
      ((hperm2.map Prod.snd).nodup_iff).mpr hnodup_snd
    have hne2 : (pySorted scoreGe (rrfScored b b k)).Pairwise
        (fun p q => p.2 ≠ q.2) := List.pairwise_map.mp hnodup_snd2
    have hge2 : (pySorted scoreGe (rrfScored b b k)).Pairwise
        (fun p q => q.2 ≤ p.2) :=
      (pySorted_pairwise scoreGe htot htrans _).imp
        (fun h => by simpa [scoreGe] using h)
    have hgt2 : (pySorted scoreGe (rrfScored b b k)).Pairwise
        (fun p q => q.2 < p.2) :=
      (hge2.and hne2).imp (fun h => lt_of_le_of_ne h.1 (h.2.symm))
    haveI : IsAntisymm (ℕ × ℚ) (fun p q => q.2 < p.2) :=
      ⟨fun a c h1 h2 => absurd (h1.trans h2) (lt_irrefl _)⟩
    have heq := List.eq_of_perm_of_sorted hperm2 hgt2 hEFsorted
    unfold reciprocalRankFusion
    rw [heq]

/-- **C3** (amended): whenever two chunk ids receive equal RRF scores, their
order in the fused output is the `rrf_scores` dict insertion order — the
hash-table iteration order of the chunk-id set union (`allChunkIds`) — not
ascending chunk id: the sort is stable and compares scores only.  Stated as:
restricting the fused output to any single score value `q` yields exactly the
scored list (in set order) restricted to `q`. -/
theorem claim_C3_tie_order (b v : List (ℕ × ℚ)) (k top : ℕ) (q : ℚ)
    (htop : (rrfScored b v k).length ≤ top) :
    (reciprocalRankFusion b v k top).filter (fun p => decide (p.2 = q))
      = (rrfScored b v k).filter (fun p => decide (p.2 = q)) := by
  have hlen : (pySorted scoreGe (rrfScored b v k)).length ≤ top := by
    rw [(pySorted_perm scoreGe (rrfScored b v k)).length_eq]
    exact htop
  unfold reciprocalRankFusion
  rw [List.take_of_length_le hlen]
  apply pySorted_stable_filter
  intro a c ha hc
  simp only [decide_eq_true_eq] at ha hc
  simp [scoreGe, ha, hc]

/-- **C3** witness for the amended theorem, at concrete candidate lists. -/
theorem claim_C3_tie_order_witness :
    ((rrfScored [((9 : ℕ), (1 : ℚ))] [((1 : ℕ), (1 : ℚ))] 60).length ≤ 20)
    ∧ (reciprocalRankFusion [((9 : ℕ), (1 : ℚ))] [((1 : ℕ), (1 : ℚ))] 60 20).filter
          (fun p => decide (p.2 = 1 / 61))
        = (rrfScored [((9 : ℕ), (1 : ℚ))] [((1 : ℕ), (1 : ℚ))] 60).filter
          (fun p => decide (p.2 = 1 / 61)) :=
  ⟨by decide, claim_C3_tie_order _ _ 60 20 (1 / 61) (by decide)⟩

/-- **C3** counterexample to the claim as stated: fusing the single-candidate
lists `[(9, ·)]` and `[(1, ·)]` gives both chunks the identical score
`1/61`, yet chunk `9` is ordered before chunk `1` — the tie is **not**
broken by ascending chunk id (which would list `1` first). -/
theorem claim_C3_counterexample :
    (reciprocalRankFusion [((9 : ℕ), (1 : ℚ))] [((1 : ℕ), (1 : ℚ))] 60 20).map
        Prod.fst = [9, 1]
    ∧ (reciprocalRankFusion [((9 : ℕ), (1 : ℚ))] [((1 : ℕ), (1 : ℚ))] 60 20).map
        Prod.snd = [1 / 61, 1 / 61] := by
  have hids : allChunkIds [((9 : ℕ), (1 : ℚ))] [((1 : ℕ), (1 : ℚ))] = [9, 1] := by
    decide
  have hb9 : rrfContrib [((9 : ℕ), (1 : ℚ))] 60 9 = 1 / 61 := by
    simp [rrfContrib, rankOf, rankOfAux]
    norm_num
  have hb1 : rrfContrib [((9 : ℕ), (1 : ℚ))] 60 1 = 0 := by
    simp [rrfContrib, rankOf, rankOfAux]
  have hv9 : rrfContrib [((1 : ℕ), (1 : ℚ))] 60 9 = 0 := by
    simp [rrfContrib, rankOf, rankOfAux]
  have hv1 : rrfContrib [((1 : ℕ), (1 : ℚ))] 60 1 = 1 / 61 := by
    simp [rrfContrib, rankOf, rankOfAux]
    norm_num
  have hscored : rrfScored [((9 : ℕ), (1 : ℚ))] [((1 : ℕ), (1 : ℚ))] 60
      = [(9, 1 / 61), (1, 1 / 61)] := by
    unfold rrfScored
    rw [hids]
    simp only [List.map_cons, List.map_nil, hb9, hb1, hv9, hv1, add_zero,
      zero_add]
  unfold reciprocalRankFusion
  rw [hscored]
  simp [pySorted, pyInsert, scoreGe]

/-- **C7** (amended): with an unbuilt lexical index, the standalone
`BM25Retriever.retrieve` raises (`IndexNotReady`), but inside
`HybridRetriever.retrieve` the lexical side is silently skipped: the call
succeeds and fuses an empty lexical candidate list with the vector results. -/
theorem claim_C7_index_not_ready (s : BM25State) (q : List Char)
    (v : List (ℕ × ℚ)) (k top : ℕ) (h : s.isInitialized = false) :
    bm25Retrieve s q = .error .indexNotReady
    ∧ hybridRetrieve s v q k top = .ok (reciprocalRankFusion [] v k top) := by
  constructor
  · simp [bm25Retrieve, h]
  · simp [hybridRetrieve, h]

/-- **C7** witness for the amended theorem at a concrete uninitialized
retriever state. -/
theorem claim_C7_index_not_ready_witness :
    (BM25State.mk false (fun _ => [])).isInitialized = false
    ∧ bm25Retrieve (BM25State.mk false (fun _ => [])) ['m'] = .error .indexNotReady
    ∧ hybridRetrieve (BM25State.mk false (fun _ => [])) [((1 : ℕ), (1 : ℚ))] ['m'] 60 10
        = .ok (reciprocalRankFusion [] [((1 : ℕ), (1 : ℚ))] 60 10) :=
  ⟨rfl, claim_C7_index_not_ready (BM25State.mk false (fun _ => [])) ['m']
    [((1 : ℕ), (1 : ℚ))] 60 10 rfl⟩

/-- **C7** counterexample to the claim as stated: in hybrid retrieval with an
unbuilt lexical index the caller receives a successful (`ok`) result — no
`IndexNotReady`-style error is surfaced from the lexical side. -/
theorem claim_C7_counterexample :
    hybridRetrieve (BM25State.mk false (fun _ => [])) [((1 : ℕ), (1 : ℚ))] ['m'] 60 10
      = .ok (reciprocalRankFusion [] [((1 : ℕ), (1 : ℚ))] 60 10) := rfl

/-- **C2** witness: hypotheses and the truncation conjunct at concrete
single-candidate lists. -/
theorem claim_C2_rrf_fusion_witness :
    (([((0 : ℕ), (1 : ℚ))].map Prod.fst).Nodup)
    ∧ (([((1 : ℕ), (1 : ℚ))].map Prod.fst).Nodup)
    ∧ (reciprocalRankFusion [((0 : ℕ), (1 : ℚ))] [((1 : ℕ), (1 : ℚ))] 60 5).length ≤ 5 :=
  ⟨by decide, by decide,
    (claim_C2_rrf_fusion [((0 : ℕ), (1 : ℚ))] [((1 : ℕ), (1 : ℚ))] 60 5
      (by decide) (by decide)).2.2.1⟩

theorem entDisj_symm : ∀ {a b : Entity}, entDisj a b → entDisj b a := by
  intro a b h
  exact h.symm

theorem overlapsB_true_iff (e x : Entity) :
    overlapsB e x = true ↔ (e.start < x.endPos ∧ x.start < e.endPos) := by
  simp [overlapsB]
  omega

theorem overlapsB_false_iff (e x : Entity) :
    overlapsB e x = false ↔ entDisj x e := by
  simp [overlapsB, entDisj]
  omega

theorem mem_rmStep (filtered : List Entity) (e x : Entity)
    (hx : x ∈ rmStep filtered e) : x ∈ filtered ∨ x = e := by
  unfold rmStep at hx
  cases hf : filtered.find? (fun ex => overlapsB e ex) with
  | none =>
    rw [hf] at hx
    dsimp only at hx
    rcases List.mem_append.mp hx with h | h
    · exact Or.inl h
    · exact Or.inr (by simpa using h)
  | some ex =>
    rw [hf] at hx
    dsimp only at hx
    by_cases hc : ex.confidence < e.confidence
    · rw [if_pos hc] at hx
      rcases List.mem_append.mp hx with h | h
      · exact Or.inl (List.mem_of_mem_erase h)
      · exact Or.inr (by simpa using h)
    · rw [if_neg hc] at hx
      exact Or.inl hx

theorem rmStep_pairwise (filtered : List Entity) (e : Entity)
    (hp : filtered.Pairwise entDisj)
    (hlb : ∀ x ∈ filtered, x.start ≤ e.start) :
    (rmStep filtered e).Pairwise entDisj := by
  unfold rmStep
  cases hf : filtered.find? (fun ex => overlapsB e ex) with
  | none =>
    dsimp only
    have hnone := List.find?_eq_none.mp hf
    rw [List.pairwise_append]
    refine ⟨hp, by simp, ?_⟩
    intro x hx b hb
    rw [List.mem_singleton] at hb
    rw [hb]
    have := hnone x hx
    exact (overlapsB_false_iff e x).mp (by simpa using this)
  | some ex =>
    dsimp only
    have hexmem : ex ∈ filtered := List.mem_of_find?_eq_some hf
    have hexov : e.start < ex.endPos ∧ ex.start < e.endPos :=
      (overlapsB_true_iff e ex).mp (List.find?_some hf)
    by_cases hc : ex.confidence < e.confidence
    · rw [if_pos hc]
      rw [List.pairwise_append]
      refine ⟨List.Pairwise.sublist (List.erase_sublist ex filtered) hp,
        by simp, ?_⟩
      intro x hx b hb
      rw [List.mem_singleton] at hb
      rw [hb]
      by_contra hnd
      have hxf : x ∈ filtered := List.mem_of_mem_erase hx
      have hxov : x.start ≤ e.start ∧ e.start < x.endPos := by
        have hxlb := hlb x hxf
        unfold entDisj at hnd
        push_neg at hnd
        exact ⟨hxlb, by omega⟩
      have hexlb := hlb ex hexmem
      by_cases hxeq : x = ex
      · subst hxeq
        have h1 : 0 < (filtered.erase x).count x := List.count_pos_iff.mpr hx
        have h2 : (filtered.erase x).count x = filtered.count x - 1 :=
          List.count_erase_self x filtered
        have hdup : List.Duplicate x filtered :=
          List.duplicate_iff_two_le_count.mpr (by omega)
        have hsub : [x, x].Sublist filtered :=
          List.duplicate_iff_sublist.mp hdup
        have hxx : entDisj x x := by
          have := List.Pairwise.sublist hsub hp
          rcases List.pairwise_cons.mp this with ⟨hrel, _⟩
          exact hrel x (List.mem_singleton_self x)
        unfold entDisj at hxx
        omega
      · have hdisj : entDisj x ex :=
          hp.forall (fun _ _ h => Or.symm h) hxf hexmem hxeq
        unfold entDisj at hdisj
        omega
    · rw [if_neg hc]
      exact hp

theorem rmFold_pairwise :
    ∀ (ss filtered : List Entity),
      ss.Pairwise (fun a b => a.start ≤ b.start) →
      filtered.Pairwise entDisj →
      (∀ x ∈ filtered, ∀ s ∈ ss, x.start ≤ s.start) →
      (ss.foldl rmStep filtered).Pairwise entDisj := by
  intro ss
  induction ss with
  | nil => intro filtered _ hp _; exact hp
  | cons e rest ih =>
    intro filtered hs hp hlb
    rw [List.foldl_cons]
    rcases List.pairwise_cons.mp hs with ⟨he, hrest⟩
    refine ih (rmStep filtered e) hrest ?_ ?_
    · exact rmStep_pairwise filtered e hp
        (fun x hx => hlb x hx e (List.mem_cons_self e rest))
    · intro x hx s hsr
      rcases mem_rmStep filtered e x hx with h | h
      · exact hlb x h s (List.mem_cons_of_mem e hsr)
      · subst h
        exact he s hsr

theorem entLe_total : ∀ a b : Entity, entLe a b = false → entLe b a = true := by
  intro a b h
  simp only [entLe, decide_eq_false_iff_not, not_or, not_and, not_lt] at h
  simp only [entLe, decide_eq_true_eq]
  omega

theorem entLe_trans : ∀ a b c : Entity,
    entLe a b = true → entLe b c = true → entLe a c = true := by
  intro a b c h1 h2
  simp only [entLe, decide_eq_true_eq] at h1 h2 ⊢
  omega

/-- `_remove_overlaps` always returns a pairwise span-disjoint list. -/
theorem removeOverlaps_pairwise (es : List Entity) :
    (removeOverlaps es).Pairwise entDisj := by
  unfold removeOverlaps
  by_cases hne : es.isEmpty
  · rw [if_pos hne]
    simp
  · rw [if_neg hne]
    have hsorted : (pySorted entLe es).Pairwise (fun a b => a.start ≤ b.start) := by
      refine (pySorted_pairwise entLe entLe_total entLe_trans es).imp ?_
      intro a b h
      simp only [entLe, decide_eq_true_eq] at h
      omega
    have hfold := rmFold_pairwise (pySorted entLe es) [] hsorted
      (by simp) (by simp)
    exact (List.Perm.pairwise_iff (fun h => entDisj_symm h)
      (pySorted_perm startLe _)).mpr hfold

/-- **C1** (amended): for every input text, no two entities returned by
`LegalNER.extract_entities` have overlapping spans.  (The claim's second
half — that at every overlap among scanner candidates the strictly
higher-confidence candidate is the one kept — is false; see the
counterexample.) -/
theorem claim_C1_no_overlap (text : List Char) :
    (extractEntities text).Pairwise
      (fun a b => a.endPos ≤ b.start ∨ b.endPos ≤ a.start) :=
  removeOverlaps_pairwise (extractCandidates text)

/-- **C1** counterexample to the claim as stated: on
`"IPC Section 5 of the Evidence Act"` the scanners produce the candidate
`"Evidence_Act Section 5"` (span 4..33, confidence 0.90) and the candidate
`"Evidence Act"` (span 21..33, confidence 0.85); the two overlap and the
first has strictly higher confidence, yet the output keeps the
lower-confidence statute and drops the higher-confidence section (the
section lost an earlier overlap against `"IPC Section 5"`, a same-confidence
candidate, and then no longer shielded its span). -/
theorem claim_C1_counterexample :
    (Entity.mk "Evidence_Act Section 5".toList .legalSection 4 33 90
        (EntityMeta.mk (some "Evidence_Act".toList) (some "5".toList) none))
      ∈ extractCandidates "IPC Section 5 of the Evidence Act".toList
    ∧ (Entity.mk "Evidence Act".toList .statute 21 33 85
        (EntityMeta.mk none none none))
      ∈ extractCandidates "IPC Section 5 of the Evidence Act".toList
    ∧ overlapsB
        (Entity.mk "Evidence_Act Section 5".toList .legalSection 4 33 90
          (EntityMeta.mk (some "Evidence_Act".toList) (some "5".toList) none))
        (Entity.mk "Evidence Act".toList .statute 21 33 85
          (EntityMeta.mk none none none)) = true
    ∧ (Entity.mk "Evidence Act".toList .statute 21 33 85
        (EntityMeta.mk none none none)).confidence
      < (Entity.mk "Evidence_Act Section 5".toList .legalSection 4 33 90
          (EntityMeta.mk (some "Evidence_Act".toList) (some "5".toList)
            none)).confidence
    ∧ (Entity.mk "Evidence Act".toList .statute 21 33 85
        (EntityMeta.mk none none none))
      ∈ extractEntities "IPC Section 5 of the Evidence Act".toList
    ∧ (Entity.mk "Evidence_Act Section 5".toList .legalSection 4 33 90
        (EntityMeta.mk (some "Evidence_Act".toList) (some "5".toList) none))
      ∉ extractEntities "IPC Section 5 of the Evidence Act".toList := by
  decide

theorem splitOnP_append_sep {α : Type} (p : α → Bool) (sep : α)
    (hsep : p sep = true) :
    ∀ a b : List α, (a ++ sep :: b).splitOnP p = a.splitOnP p ++ b.splitOnP p := by
  intro a
  induction a with
  | nil =>
    intro b
    simp [List.splitOnP_cons, hsep, List.splitOnP_nil]
  | cons c cs ih =>
    intro b
    simp only [List.cons_append, List.splitOnP_cons, ih b]
    by_cases hc : p c
    · simp [hc]
    · simp only [hc, Bool.false_eq_true, if_false]
      cases h : cs.splitOnP p with
      | nil => exact absurd h (List.splitOnP_ne_nil p cs)
      | cons w ws => simp [List.modifyHead]

theorem pySplitWs_append_sep (a b : List Char) :
    pySplitWs (a ++ ' ' :: b) = pySplitWs a ++ pySplitWs b := by
  unfold pySplitWs
  rw [splitOnP_append_sep isPySpace ' ' (by decide), List.filter_append]

theorem pySplitWs_nil : pySplitWs [] = [] := by decide

theorem pySplitWs_joinSp : ∀ parts : List (List Char),
    pySplitWs (joinSp parts) = parts.flatMap pySplitWs := by
  intro parts
  induction parts with
  | nil => simp [joinSp, pyJoin, pySplitWs_nil]
  | cons w rest ih =>
    cases rest with
    | nil => simp [joinSp, pyJoin]
    | cons v vs =>
      have hj : joinSp (w :: v :: vs) = w ++ ' ' :: joinSp (v :: vs) := by
        simp [joinSp, pyJoin]
      rw [hj, pySplitWs_append_sep, ih]
      simp

theorem countTokens_nil : countTokens [] = 0 := by decide

theorem countTokens_join_superadd (xs : List (List Char)) (s : List Char) :
    countTokens (joinSp xs) + countTokens s ≤ countTokens (joinSp (xs ++ [s])) := by
  unfold countTokens
  rw [pySplitWs_joinSp, pySplitWs_joinSp, List.flatMap_append]
  simp only [List.flatMap_cons, List.flatMap_nil, List.append_nil,
    List.length_append]
  omega

theorem countTokens_join_prefix (xs ys : List (List Char)) :
    countTokens (joinSp xs) ≤ countTokens (joinSp (xs ++ ys)) := by
  unfold countTokens
  rw [pySplitWs_joinSp, pySplitWs_joinSp, List.flatMap_append]
  simp only [List.length_append]
  have : 13 * (xs.flatMap pySplitWs).length ≤
      13 * ((xs.flatMap pySplitWs).length + (ys.flatMap pySplitWs).length) := by
    omega
  exact Nat.div_le_div_right this

theorem countTokens_mem_join (s : List Char) (parts : List (List Char))
    (h : s ∈ parts) : countTokens s ≤ countTokens (joinSp parts) := by
  rcases List.append_of_mem h with ⟨l1, l2, rfl⟩
  unfold countTokens
  rw [pySplitWs_joinSp, List.flatMap_append, List.flatMap_cons]
  simp only [List.length_append]
  have : 13 * (pySplitWs s).length ≤
      13 * ((l1.flatMap pySplitWs).length + ((pySplitWs s).length +
        (l2.flatMap pySplitWs).length)) := by
    omega
  exact Nat.div_le_div_right this

theorem chunkLoop_inv_new (cfg : ChunkerCfg) (cur : List (List Char))
    (s : List Char) :
    countTokens (getOverlapText cfg cur) + countTokens s ≤
      countTokens (joinSp (chunkLoop.opt (getOverlapText cfg cur) ++ [s])) := by
  by_cases hov : (getOverlapText cfg cur).isEmpty
  · have : getOverlapText cfg cur = [] := by
      cases h : getOverlapText cfg cur
      · rfl
      · rw [h] at hov; simp at hov
    rw [this]
    simp [chunkLoop.opt, countTokens_nil, joinSp, pyJoin]
  · rw [chunkLoop.opt, if_neg hov]
    have := countTokens_join_superadd [getOverlapText cfg cur] s
    simpa [joinSp, pyJoin] using this

theorem chunkLoop_tokens (cfg : ChunkerCfg) (sty : Option (List Char)) :
    ∀ (ss cur : List (List Char)) (tok start : ℕ),
      tok ≤ countTokens (joinSp cur) →
      ∀ c ∈ chunkLoop cfg sty ss cur tok start,
        cfg.minChunkSize ≤ countTokens c.text ∨
        ∃ s ∈ ss, cfg.chunkSize < countTokens c.text + countTokens s := by
  intro ss
  induction ss with
  | nil =>
    intro cur tok start _hinv c hc
    rw [chunkLoop] at hc
    by_cases hcur : cur.isEmpty
    · rw [if_pos hcur] at hc; simp at hc
    · rw [if_neg hcur] at hc
      by_cases hmin : cfg.minChunkSize ≤ countTokens (joinSp cur)
      · rw [if_pos hmin] at hc
        rw [List.mem_singleton] at hc
        subst hc
        exact Or.inl hmin
      · rw [if_neg hmin] at hc; simp at hc
  | cons s rest ih =>
    intro cur tok start hinv c hc
    rw [chunkLoop] at hc
    by_cases hfl : cfg.chunkSize < tok + countTokens s ∧ ¬ cur.isEmpty
    · rw [if_pos hfl] at hc
      rcases List.mem_cons.mp hc with hc0 | hcr
      · subst hc0
        refine Or.inr ⟨s, List.mem_cons_self s rest, ?_⟩
        have := hinv
        simp only []
        omega
      · have := ih _ _ _ (chunkLoop_inv_new cfg cur s) c hcr
        rcases this with h | ⟨s', hs', hb⟩
        · exact Or.inl h
        · exact Or.inr ⟨s', List.mem_cons_of_mem s hs', hb⟩
    · rw [if_neg hfl] at hc
      have hinv' : tok + countTokens s ≤ countTokens (joinSp (cur ++ [s])) :=
        le_trans (by omega) (countTokens_join_superadd cur s)
      have := ih _ _ _ hinv' c hc
      rcases this with h | ⟨s', hs', hb⟩
      · exact Or.inl h
      · exact Or.inr ⟨s', List.mem_cons_of_mem s hs', hb⟩

theorem chunkLoop_eq_nil (cfg : ChunkerCfg) (sty : Option (List Char))
    (hmin : 0 < cfg.minChunkSize) :
    ∀ (ss cur : List (List Char)) (tok start : ℕ),
      chunkLoop cfg sty ss cur tok start = [] →
      countTokens (joinSp cur) < cfg.minChunkSize := by
  intro ss
  induction ss with
  | nil =>
    intro cur tok start h
    rw [chunkLoop] at h
    by_cases hcur : cur.isEmpty
    · have : cur = [] := by
        cases hc : cur
        · rfl
        · rw [hc] at hcur; simp at hcur
      rw [this]
      simpa [joinSp, pyJoin, countTokens_nil] using hmin
    · rw [if_neg hcur] at h
      by_cases hm : cfg.minChunkSize ≤ countTokens (joinSp cur)
      · rw [if_pos hm] at h
        exact absurd h (by simp)
      · omega
  | cons s rest ih =>
    intro cur tok start h
    rw [chunkLoop] at h
    by_cases hfl : cfg.chunkSize < tok + countTokens s ∧ ¬ cur.isEmpty
    · rw [if_pos hfl] at h
      exact absurd h (by simp)
    · rw [if_neg hfl] at h
      have := ih _ _ _ h
      calc countTokens (joinSp cur)
          ≤ countTokens (joinSp (cur ++ [s])) := countTokens_join_prefix cur [s]
        _ < cfg.minChunkSize := this

theorem chunkLoop_getLast (cfg : ChunkerCfg) (sty : Option (List Char))
    (hmin : 0 < cfg.minChunkSize)
    (hsz : 2 * cfg.minChunkSize ≤ cfg.chunkSize + 2) :
    ∀ (ss cur : List (List Char)) (tok start : ℕ),
      tok ≤ countTokens (joinSp cur) →
      ∀ c, (chunkLoop cfg sty ss cur tok start).getLast? = some c →
        cfg.minChunkSize ≤ countTokens c.text := by
  intro ss
  induction ss with
  | nil =>
    intro cur tok start _hinv c hc
    rw [chunkLoop] at hc
    by_cases hcur : cur.isEmpty
    · rw [if_pos hcur] at hc; exact absurd hc (by simp)
    · rw [if_neg hcur] at hc
      by_cases hm : cfg.minChunkSize ≤ countTokens (joinSp cur)
      · rw [if_pos hm] at hc
        simp only [List.getLast?_singleton, Option.some_inj] at hc
        rw [← hc]
        exact hm
      · rw [if_neg hm] at hc; exact absurd hc (by simp)
  | cons s rest ih =>
    intro cur tok start hinv c hc
    rw [chunkLoop] at hc
    by_cases hfl : cfg.chunkSize < tok + countTokens s ∧ ¬ cur.isEmpty
    · rw [if_pos hfl] at hc
      cases hL : chunkLoop cfg sty rest
          (chunkLoop.opt (getOverlapText cfg cur) ++ [s])
          (countTokens (getOverlapText cfg cur) + countTokens s)
          (start + (joinSp cur).length - (getOverlapText cfg cur).length) with
      | nil =>
        rw [hL] at hc
        simp only [List.getLast?_singleton, Option.some_inj] at hc
        rw [← hc]
        have hsmall := chunkLoop_eq_nil cfg sty hmin _ _ _ _ hL
        have hsmem : s ∈ chunkLoop.opt (getOverlapText cfg cur) ++ [s] := by
          simp
        have hs_le := countTokens_mem_join s _ hsmem
        simp only []
        omega
      | cons c2 L2 =>
        rw [hL] at hc
        rw [List.getLast?_cons_cons] at hc
        rw [← hL] at hc
        exact ih _ _ _ (chunkLoop_inv_new cfg cur s) c hc
    · rw [if_neg hfl] at hc
      have hinv' : tok + countTokens s ≤ countTokens (joinSp (cur ++ [s])) :=
        le_trans (by omega) (countTokens_join_superadd cur s)
      exact ih _ _ _ hinv' c hc

/-- **C4** (amended): every chunk produced by `LegalChunker.chunk` either
has at least `min_chunk_size` tokens (the trailing chunk of its section) or
was flushed because appending some further sentence of its section would
exceed `chunk_size` (`tokens(chunk) + tokens(s) > chunk_size`).  No
two-sided containment in `[min_chunk_size, chunk_size]` holds (see the
counterexample). -/
theorem claim_C4_chunk_token_bounds (cfg : ChunkerCfg) (text : List Char)
    (sty : Option (List Char)) (off : ℕ) :
    (∀ c ∈ chunkText cfg text sty off,
      cfg.minChunkSize ≤ countTokens c.text ∨
      ∃ s ∈ splitSentences text,
        cfg.chunkSize < countTokens c.text + countTokens s)
    ∧ (∀ c ∈ legalChunk cfg text,
      cfg.minChunkSize ≤ countTokens c.text ∨
      ∃ s, (s ∈ splitSentences text ∨
              ∃ sec ∈ detectSections text, s ∈ splitSentences sec.text)
        ∧ cfg.chunkSize < countTokens c.text + countTokens s) := by
  constructor
  · intro c hc
    exact chunkLoop_tokens cfg sty (splitSentences text) [] 0 off
      (by simp [joinSp, pyJoin, countTokens_nil]) c hc
  · intro c hc
    unfold legalChunk at hc
    cases hd : detectSections text with
    | nil =>
      rw [hd] at hc
      rcases chunkLoop_tokens cfg none (splitSentences text) [] 0 0
          (by simp [joinSp, pyJoin, countTokens_nil]) c hc with h | ⟨s, hs, hb⟩
      · exact Or.inl h
      · exact Or.inr ⟨s, Or.inl hs, hb⟩
    | cons sec0 rest =>
      rw [hd] at hc
      rcases List.mem_flatMap.mp hc with ⟨sec, hsec, hcm⟩
      rcases chunkLoop_tokens cfg (some sec.type) (splitSentences sec.text)
          [] 0 sec.start (by simp [joinSp, pyJoin, countTokens_nil]) c hcm with
        h | ⟨s, hs, hb⟩
      · exact Or.inl h
      · exact Or.inr ⟨s, Or.inr ⟨sec, hd ▸ hsec, hs⟩, hb⟩

set_option maxRecDepth 100000 in
/-- **C4** counterexample to the claim as stated: on `c4Text` (sentences of
4, 401, 77 words; default configuration 512/50/100) the chunker produces
chunks of 5, 521 and 100 tokens.  The first chunk (not the last of its
section) has 5 < 100 = `min_chunk_size` tokens, and the second (also not
the last) has 521 > 512 = `chunk_size` tokens. -/
theorem claim_C4_counterexample :
    ((legalChunk (ChunkerCfg.mk 512 50 100) c4Text).map
        (fun c => countTokens c.text)) = [5, 521, 100]
    ∧ 5 < 100 ∧ 512 < 521 := by
  decide

/-- **C5** (amended): the trailing chunk of a section is dropped whenever
its token count is below `min_chunk_size`, **even when it is the only
chunk**; consequently (for configurations with `0 < min_chunk_size` and
`2*min_chunk_size ≤ chunk_size + 2`, which includes the defaults) the last
chunk `_chunk_text` emits always has at least `min_chunk_size` tokens. -/
theorem claim_C5_trailing_dropped (cfg : ChunkerCfg) (text : List Char)
    (sty : Option (List Char)) (off : ℕ)
    (h1 : 0 < cfg.minChunkSize)
    (h2 : 2 * cfg.minChunkSize ≤ cfg.chunkSize + 2) :
    ∀ c, (chunkText cfg text sty off).getLast? = some c →
      cfg.minChunkSize ≤ countTokens c.text :=
  fun c hc => chunkLoop_getLast cfg sty h1 h2 (splitSentences text) [] 0 off
    (by simp [joinSp, pyJoin, countTokens_nil]) c hc

/-- **C5** witness: the amended theorem applied at the default
configuration and a one-sentence text. -/
theorem claim_C5_trailing_dropped_witness :
    0 < (ChunkerCfg.mk 512 50 100).minChunkSize
    ∧ 2 * (ChunkerCfg.mk 512 50 100).minChunkSize ≤
        (ChunkerCfg.mk 512 50 100).chunkSize + 2
    ∧ (∀ c, (chunkText (ChunkerCfg.mk 512 50 100) "Hello world.".toList
          none 0).getLast? = some c →
        (ChunkerCfg.mk 512 50 100).minChunkSize ≤ countTokens c.text) :=
  ⟨by decide, by decide,
    claim_C5_trailing_dropped (ChunkerCfg.mk 512 50 100)
      "Hello world.".toList none 0 (by decide) (by decide)⟩

/-- **C5** counterexample to the claim as stated: `"Hello world."` produces
exactly one accumulated (trailing) chunk of 2 tokens, below
`min_chunk_size = 100`; the claim says the sole chunk is kept, but
`LegalChunker.chunk` returns the empty list. -/
theorem claim_C5_counterexample :
    legalChunk (ChunkerCfg.mk 512 50 100) "Hello world.".toList = []
    ∧ splitSentences "Hello world.".toList = ["Hello world.".toList]
    ∧ countTokens "Hello world.".toList = 2 := by
  decide

/-! ### Supporting lemmas: split tokens and deduplication -/

theorem splitOnP_sep_free {α : Type} (p : α → Bool) :
    ∀ (s w : List α), w ∈ s.splitOnP p → ∀ c ∈ w, p c = false := by
  intro s
  induction s with
  | nil =>
    intro w hw c hc
    simp [List.splitOnP_nil] at hw
    subst hw
    exact absurd hc (List.not_mem_nil c)
  | cons a s ih =>
    intro w hw c hc
    rw [List.splitOnP_cons] at hw
    by_cases hp : p a = true
    · rw [if_pos hp] at hw
      rcases List.mem_cons.mp hw with rfl | hw'
      · exact absurd hc (List.not_mem_nil c)
      · exact ih w hw' c hc
    · rw [if_neg hp] at hw
      cases hsp : s.splitOnP p with
      | nil => exact absurd hsp (List.splitOnP_ne_nil p s)
      | cons h t =>
        rw [hsp] at hw
        simp only [List.modifyHead] at hw
        rcases List.mem_cons.mp hw with rfl | hw'
        · rcases List.mem_cons.mp hc with rfl | hc'
          · simpa using hp
          · exact ih h (by rw [hsp]; exact List.mem_cons_self h t) c hc'
        · exact ih w (by rw [hsp]; exact List.mem_cons_of_mem h hw') c hc

theorem splitOnP_eq_self_of_sep_free {α : Type} (p : α → Bool) :
    ∀ w : List α, (∀ c ∈ w, p c = false) → w.splitOnP p = [w] := by
  intro w
  induction w with
  | nil => intro _; simp [List.splitOnP_nil]
  | cons a w ih =>
    intro h
    have ha : p a = false := h a (List.mem_cons_self a w)
    simp only [List.splitOnP_cons, ha, Bool.false_eq_true, if_false]
    rw [ih (fun c hc => h c (List.mem_cons_of_mem a hc))]
    simp [List.modifyHead]

theorem mem_pySplitWs_token (s w : List Char) (hw : w ∈ pySplitWs s) :
    pySplitWs w = [w] := by
  unfold pySplitWs at hw ⊢
  rcases List.mem_filter.mp hw with ⟨h1, h2⟩
  rw [splitOnP_eq_self_of_sep_free isPySpace w (splitOnP_sep_free isPySpace s w h1)]
  simp only [List.filter_cons, h2, if_true, List.filter_nil]

theorem flatMap_self {α : Type} (f : α → List α) :
    ∀ l : List α, (∀ w ∈ l, f w = [w]) → l.flatMap f = l := by
  intro l
  induction l with
  | nil => intro _; simp
  | cons a l ih =>
    intro h
    rw [List.flatMap_cons, h a (List.mem_cons_self a l),
      ih (fun w hw => h w (List.mem_cons_of_mem a hw))]
    rfl

theorem dedupGo_subset : ∀ (ws seen : List (List Char)) (w : List Char),
    w ∈ dedupGo seen ws → w ∈ ws := by
  intro ws
  induction ws with
  | nil => intro seen w hw; simp [dedupGo] at hw
  | cons x xs ih =>
    intro seen w hw
    simp only [dedupGo] at hw
    by_cases hx : pyLower x ∈ seen
    · rw [if_pos hx] at hw
      exact List.mem_cons_of_mem x (ih seen w hw)
    · rw [if_neg hx] at hw
      rcases List.mem_cons.mp hw with rfl | hw'
      · exact List.mem_cons_self w xs
      · exact List.mem_cons_of_mem x (ih (pyLower x :: seen) w hw')

theorem tokens_dedupQuery (q : List Char) :
    pySplitWs (dedupQuery q) = dedupGo [] (pySplitWs q) := by
  unfold dedupQuery
  rw [pySplitWs_joinSp]
  exact flatMap_self pySplitWs (dedupGo [] (pySplitWs q))
    (fun w hw => mem_pySplitWs_token q w (dedupGo_subset (pySplitWs q) [] w hw))

theorem dedupGo_pairwise : ∀ (ws seen : List (List Char)),
    ((dedupGo seen ws).Pairwise (fun a b => pyLower a ≠ pyLower b)) ∧
    (∀ w ∈ dedupGo seen ws, pyLower w ∉ seen) := by
  intro ws
  induction ws with
  | nil => intro seen; refine ⟨by simp [dedupGo], by simp [dedupGo]⟩
  | cons x xs ih =>
    intro seen
    simp only [dedupGo]
    by_cases hx : pyLower x ∈ seen
    · rw [if_pos hx]
      exact ih seen
    · rw [if_neg hx]
      refine ⟨List.pairwise_cons.mpr ⟨?_, (ih (pyLower x :: seen)).1⟩, ?_⟩
      · intro b hb hEq
        exact (ih (pyLower x :: seen)).2 b hb (hEq ▸ List.mem_cons_self _ _)
      · intro w hw
        rcases List.mem_cons.mp hw with rfl | hw'
        · exact hx
        · exact fun hm =>
            (ih (pyLower x :: seen)).2 w hw' (List.mem_cons_of_mem _ hm)

theorem dedupGo_id : ∀ (ws seen : List (List Char)),
    ws.Pairwise (fun a b => pyLower a ≠ pyLower b) →
    (∀ w ∈ ws, pyLower w ∉ seen) → dedupGo seen ws = ws := by
  intro ws
  induction ws with
  | nil => intro seen _ _; simp [dedupGo]
  | cons x xs ih =>
    intro seen hp hs
    have hx : pyLower x ∉ seen := hs x (List.mem_cons_self x xs)
    simp only [dedupGo]
    rw [if_neg hx]
    congr 1
    apply ih
    · exact (List.pairwise_cons.mp hp).2
    · intro w hw hm
      rcases List.mem_cons.mp hm with hEq | hm'
      · exact (List.pairwise_cons.mp hp).1 w hw hEq.symm
      · exact hs w (List.mem_cons_of_mem x hw) hm'

theorem dedupGo_lower_mem : ∀ (ws seen : List (List Char)) (w : List Char),
    w ∈ ws → pyLower w ∈ seen ∨
      ∃ w', w' ∈ dedupGo seen ws ∧ pyLower w' = pyLower w := by
  intro ws
  induction ws with
  | nil => intro seen w hw; exact absurd hw (List.not_mem_nil w)
  | cons x xs ih =>
    intro seen w hw
    by_cases hx : pyLower x ∈ seen
    · rcases List.mem_cons.mp hw with rfl | hw'
      · exact Or.inl hx
      · rcases ih seen w hw' with h | ⟨w', hw1, hw2⟩
        · exact Or.inl h
        · refine Or.inr ⟨w', ?_, hw2⟩
          simp only [dedupGo]
          rw [if_pos hx]
          exact hw1
    · rcases List.mem_cons.mp hw with rfl | hw'
      · refine Or.inr ⟨w, ?_, rfl⟩
        simp only [dedupGo]
        rw [if_neg hx]
        exact List.mem_cons_self _ _
      · rcases ih (pyLower x :: seen) w hw' with h | ⟨w', hw1, hw2⟩
        · rcases List.mem_cons.mp h with hEq | hseen
          · refine Or.inr ⟨x, ?_, hEq.symm⟩
            simp only [dedupGo]
            rw [if_neg hx]
            exact List.mem_cons_self _ _
          · exact Or.inl hseen
        · refine Or.inr ⟨w', ?_, hw2⟩
          simp only [dedupGo]
          rw [if_neg hx]
          exact List.mem_cons_of_mem x hw1

theorem dedup_exists_lower (q w : List Char) (hw : w ∈ pySplitWs q) :
    ∃ w', w' ∈ pySplitWs (dedupQuery q) ∧ pyLower w' = pyLower w := by
  rw [tokens_dedupQuery]
  rcases dedupGo_lower_mem (pySplitWs q) [] w hw with h | h
  · exact absurd h (List.not_mem_nil _)
  · exact h

theorem dedupQuery_pairwise (q : List Char) :
    (pySplitWs (dedupQuery q)).Pairwise (fun a b => pyLower a ≠ pyLower b) := by
  rw [tokens_dedupQuery]
  exact (dedupGo_pairwise (pySplitWs q) []).1

/-! ### Claim theorems: dark zones and query enhancement -/

/-- **C9**: every `DarkZone` returned by `detect_dark_zones` carries a
`section_entity` that is itself an element of the `extract_entities` output
on the same text, of type `LEGAL_SECTION`. -/
theorem claim_C9_dark_zone_entity (cws : ℕ) (text : List Char)
    (dz : DarkZone) (hdz : dz ∈ detectDarkZones cws text) :
    dz.sectionEntity ∈ extractEntities text ∧
    dz.sectionEntity.entityType = EntityType.legalSection := by
  unfold detectDarkZones at hdz
  rcases List.mem_filterMap.mp hdz with ⟨e, he, hsome⟩
  rcases List.mem_filter.mp he with ⟨hmem, htype⟩
  dsimp only at hsome
  by_cases hex : isSectionExplained (getContextWindow cws text e) e = true
  · rw [if_pos hex] at hsome
    simp at hsome
  · rw [if_neg hex] at hsome
    rw [← Option.some.inj hsome]
    exact ⟨hmem, of_decide_eq_true htype⟩

set_option maxRecDepth 400000 in
/-- **C9** witness: the single dark zone of `t9`. -/
theorem claim_C9_dark_zone_entity_witness :
    dz9 ∈ detectDarkZones 500 t9 ∧
    dz9.sectionEntity ∈ extractEntities t9 ∧
    dz9.sectionEntity.entityType = EntityType.legalSection :=
  ⟨by decide, claim_C9_dark_zone_entity 500 t9 dz9 (by decide)⟩

/-- **C6** (amended): the proximity test of `_is_section_explained`
measures the distance from an explanation-indicator match not to the
section mention but to `context_lower.find` of the **normalized** entity
text (`-1` when that string does not occur verbatim).  Whenever some
indicator pattern has a match within 200 of that reference point, no dark
zone is emitted for the entity. -/
theorem claim_C6_explained_not_dark (cws : ℕ) (text : List Char) (e : Entity)
    (hpat : ∃ pat ∈ explanationIndicators,
      ∃ m ∈ reFinditer false pat (pyLower (getContextWindow cws text e)),
        ((m.1 : Int) -
          pyFind (pyLower (getContextWindow cws text e)) (pyLower e.text)).natAbs
          < 200)
    (dz : DarkZone) (hdz : dz ∈ detectDarkZones cws text) :
    dz.sectionEntity ≠ e := by
  have hex : isSectionExplained (getContextWindow cws text e) e = true := by
    unfold isSectionExplained
    dsimp only
    rcases hpat with ⟨pat, hp, m, hm, hlt⟩
    simp only [Bool.or_eq_true]
    left
    exact List.any_eq_true.mpr
      ⟨pat, hp, List.any_eq_true.mpr ⟨m, hm, decide_eq_true hlt⟩⟩
  unfold detectDarkZones at hdz
  rcases List.mem_filterMap.mp hdz with ⟨e', he', hsome⟩
  dsimp only at hsome
  by_cases hex' : isSectionExplained (getContextWindow cws text e') e' = true
  · rw [if_pos hex'] at hsome
    simp at hsome
  · rw [if_neg hex'] at hsome
    intro heq
    rw [← Option.some.inj hsome] at heq
    have he'e : e' = e := heq
    rw [he'e] at hex'
    exact hex' hex

set_option maxRecDepth 400000 in
/-- **C6** witness: on `t6w`, the first mention is explained (a
`which states` match 16 characters from the found normalized text), and the
one dark zone emitted is for the second mention, not the first. -/
theorem claim_C6_explained_not_dark_witness :
    (∃ pat ∈ explanationIndicators,
      ∃ m ∈ reFinditer false pat (pyLower (getContextWindow 500 t6w e6w)),
        ((m.1 : Int) -
          pyFind (pyLower (getContextWindow 500 t6w e6w)) (pyLower e6w.text)).natAbs
          < 200)
    ∧ dz6 ∈ detectDarkZones 500 t6w
    ∧ dz6.sectionEntity ≠ e6w :=
  ⟨by decide, by decide,
    claim_C6_explained_not_dark 500 t6w e6w (by decide) dz6 (by decide)⟩

set_option maxRecDepth 400000 in
/-- **C6** counterexample to the claim as stated: in `c6Text` the section
mention spans `[210, 246)` and is immediately (1 < 200 characters) followed
by `which states` at `[247, 259)`, yet a dark zone **is** emitted for it:
the normalized entity text `IPC Section 302` does not occur verbatim, so
`find` returns `-1` and every indicator distance is at least 200. -/
theorem claim_C6_counterexample :
    ((detectDarkZones 500 c6Text).map (fun dz =>
      (dz.sectionEntity.text, dz.sectionEntity.start, dz.sectionEntity.endPos)))
      = [("IPC Section 302".toList, 210, 246)]
    ∧ sliceStr c6Text 247 259 = "which states".toList
    ∧ 247 - 246 < 200 := by
  decide

/-- **C8**: no high-confidence entity is lost to deduplication: every
whitespace token of the text of an extracted entity with confidence at
least 0.8 and type LegalSection, CaseNumber or Statute still occurs
(up to lowercasing) among the tokens of the enhanced query, for every
interleaving `terms` of the (hash-order-dependent) legal-term list. -/
theorem claim_C8_high_conf_tokens (text : List Char) (terms : List (List Char))
    (e : Entity) (he : e ∈ extractEntities text) (hc : 80 ≤ e.confidence)
    (ht : e.entityType = EntityType.legalSection ∨
          e.entityType = EntityType.caseNumber ∨
          e.entityType = EntityType.statute)
    (w : List Char) (hw : w ∈ pySplitWs e.text) :
    ∃ w', w' ∈ pySplitWs (enhanceQuery terms text) ∧ pyLower w' = pyLower w := by
  unfold enhanceQuery
  dsimp only
  apply dedup_exists_lower
  rw [pySplitWs_joinSp]
  apply List.mem_flatMap.mpr
  refine ⟨e.text, ?_, hw⟩
  have hB : e.text ∈ ((extractEntities text).filter (fun x =>
      decide (80 ≤ x.confidence ∧
        (x.entityType = EntityType.legalSection ∨
         x.entityType = EntityType.caseNumber ∨
         x.entityType = EntityType.statute)))).map Entity.text :=
    List.mem_map.mpr ⟨e, List.mem_filter.mpr ⟨he, decide_eq_true ⟨hc, ht⟩⟩, rfl⟩
  exact List.mem_append.mpr (Or.inl (List.mem_append.mpr (Or.inl
    (List.mem_append.mpr (Or.inr hB)))))

set_option maxRecDepth 400000 in
/-- **C8** witness: on `t8`, the token `IPC` of the extracted section
entity survives into the enhanced query. -/
theorem claim_C8_high_conf_tokens_witness :
    e8 ∈ extractEntities t8 ∧ 80 ≤ e8.confidence
    ∧ (e8.entityType = EntityType.legalSection ∨
       e8.entityType = EntityType.caseNumber ∨
       e8.entityType = EntityType.statute)
    ∧ "IPC".toList ∈ pySplitWs e8.text
    ∧ ∃ w', w' ∈ pySplitWs (enhanceQuery [] t8) ∧
        pyLower w' = pyLower "IPC".toList :=
  ⟨by decide, by decide, by decide, by decide,
    claim_C8_high_conf_tokens t8 [] e8 (by decide) (by decide) (by decide)
      "IPC".toList (by decide)⟩

/-- **C10**: `_deduplicate_query` is idempotent, and consequently the
enhanced query never contains two tokens equal up to lowercasing (for every
text and every legal-term list). -/
theorem claim_C10_dedup_idempotent :
    (∀ q : List Char, dedupQuery (dedupQuery q) = dedupQuery q) ∧
    (∀ (terms : List (List Char)) (text : List Char),
      (pySplitWs (enhanceQuery terms text)).Pairwise
        (fun a b => pyLower a ≠ pyLower b)) := by
  constructor
  · intro q
    have h2 : dedupQuery (dedupQuery q) =
        joinSp (dedupGo [] (pySplitWs (dedupQuery q))) := rfl
    rw [h2, tokens_dedupQuery,
      dedupGo_id (dedupGo [] (pySplitWs q)) []
        (dedupGo_pairwise (pySplitWs q) []).1
        (fun w _ => List.not_mem_nil (pyLower w))]
    rfl
  · intro terms text
    exact dedupQuery_pairwise _

end RagLegal
